import Mathlib

/-!
Verification development for the parsercher tag-document parser and searcher.

The definitions in this file are a shallow embedding of the Rust sources:
`src/dom/tag.rs`, `src/dom/text.rs`, `src/dom/comment.rs`, `src/dom/mod.rs`,
`src/searcher.rs`, `src/parser/input.rs` and `src/parser/mod.rs`.
Rust `String` values are modelled as Lean `String`, `Vec<char>` as `List Char`,
`HashMap<String, String>` as an association list with insert-replace semantics
(the code only ever iterates the map, looks keys up, inserts and removes, and
every use is order-independent), and `usize` as `Nat` with the one underflow
site modelled explicitly.  Fallible Rust code (`Result<_, String>`) is
modelled with an explicit result type that also has a constructor for panics
(`unwrap` on `None`, out-of-bounds indexing) and one for loops that did not
finish within the given fuel, which models divergence of the corresponding
Rust loop.
-/

namespace Parsercher

/-- Outcome of running a piece of the embedded Rust code:
`ok` models `Ok`, `err` models `Err(String)`, `panicked` models a Rust panic
(`unwrap` on `None` / slice index out of bounds), and `fuelOut` means a loop
did not finish within the supplied fuel (the loop either diverges or needs
more fuel). -/
inductive PRes (α : Type) where
  | ok : α → PRes α
  | err : String → PRes α
  | panicked : PRes α
  | fuelOut : PRes α
deriving Repr

def PRes.bind {α β : Type} : PRes α → (α → PRes β) → PRes β
  | .ok a, f => f a
  | .err e, _ => .err e
  | .panicked, _ => .panicked
  | .fuelOut, _ => .fuelOut

instance : Monad PRes where
  pure := PRes.ok
  bind := PRes.bind

/-! ## Node model (src/dom) -/

/-- `DomType` from src/dom/mod.rs. -/
inductive DomType where
  | Tag
  | Text
  | Comment
deriving DecidableEq, Repr

/-- Attribute map lookup, models `HashMap::get`. -/
def attrsGet (attrs : List (String × String)) (k : String) : Option String :=
  match attrs with
  | [] => none
  | (k', v) :: rest => if k' = k then some v else attrsGet rest k

/-- Attribute map insertion, models `HashMap::insert` (replaces an existing
key). -/
def attrsInsert (attrs : List (String × String)) (k v : String) :
    List (String × String) :=
  match attrs with
  | [] => [(k, v)]
  | (k', v') :: rest =>
    if k' = k then (k, v) :: rest else (k', v') :: attrsInsert rest k v

/-- Attribute map removal, models `HashMap::remove` (returns the removed
value, if any, together with the rest of the map). -/
def attrsRemove (attrs : List (String × String)) (k : String) :
    Option String × List (String × String) :=
  match attrs with
  | [] => (none, [])
  | (k', v') :: rest =>
    if k' = k then (some v', rest)
    else
      let (r, m) := attrsRemove rest k
      (r, (k', v') :: m)

/-- `Tag` from src/dom/tag.rs. -/
structure Tag where
  name : String
  attrs : Option (List (String × String))
  terminated : Bool
  terminator : Bool
deriving DecidableEq, Repr

/-- `Tag::new`. -/
def Tag.new (name : String) : Tag :=
  { name := name, attrs := none, terminated := false, terminator := false }

/-- `Tag::set_attr` (inserts into the map, creating it if absent). -/
def Tag.set_attr (t : Tag) (attr value : String) : Tag :=
  { t with attrs := some (attrsInsert (t.attrs.getD []) attr value) }

/-- `Tag::get_attr`. -/
def Tag.get_attr (t : Tag) (attr : String) : Option String :=
  match t.attrs with
  | some attrs => attrsGet attrs attr
  | none => none

/-- `Text` from src/dom/text.rs. -/
structure Text where
  text : String
deriving DecidableEq, Repr

/-- `Comment` from src/dom/comment.rs. -/
structure Comment where
  comment : String
deriving DecidableEq, Repr

/-- `satisfy_sufficient_condition` from src/dom/tag.rs lines 180-212.
The Rust loop over `p_attrs` with early `break` on a failing entry is the
conjunction over all entries; the result does not depend on the hash-map
iteration order. -/
def satisfy_sufficient_condition (p q : Tag) : Bool :=
  if q.name = p.name then
    match p.attrs with
    | none => true
    | some pAttrs =>
      match q.attrs with
      | none => false
      | some qAttrs =>
        pAttrs.all fun pkv =>
          match attrsGet qAttrs pkv.1 with
          | some qValue => pkv.2 = "" || pkv.2 = qValue
          | none => false
  else false

/-- `Dom` from src/dom/mod.rs: a `dom_type` discriminant plus the four
optional payload fields. -/
inductive Dom where
  | mk (dom_type : DomType) (tag : Option Tag) (text : Option Text)
      (comment : Option Comment) (children : Option (List Dom))

def Dom.dom_type : Dom → DomType
  | .mk dt _ _ _ _ => dt

/-- `Dom::get_tag`. -/
def Dom.get_tag : Dom → Option Tag
  | .mk _ t _ _ _ => t

/-- `Dom::get_text`. -/
def Dom.get_text : Dom → Option Text
  | .mk _ _ t _ _ => t

/-- `Dom::get_comment`. -/
def Dom.get_comment : Dom → Option Comment
  | .mk _ _ _ c _ => c

/-- `Dom::get_children`. -/
def Dom.get_children : Dom → Option (List Dom)
  | .mk _ _ _ _ c => c

/-- `Dom::new(DomType::Tag)` followed by `set_tag` (the only way the sources
build a tag node; `set_tag` on any other `dom_type` panics and never occurs). -/
def mkTagDom (t : Tag) : Dom :=
  .mk .Tag (some t) none none none

/-- `Dom::new(DomType::Text)` followed by `set_text`. -/
def mkTextDom (t : Text) : Dom :=
  .mk .Text none (some t) none none

/-- `Dom::new(DomType::Comment)` followed by `set_comment`. -/
def mkCommentDom (c : Comment) : Dom :=
  .mk .Comment none none (some c) none

/-- `Dom::new_root`. -/
def Dom.new_root : Dom :=
  mkTagDom (Tag.new "root")

/-- `Dom::add_child`: pushes onto the child vector, creating it if absent. -/
def Dom.add_child : Dom → Dom → Dom
  | .mk dt t tx cm ch, c => .mk dt t tx cm (some ((ch.getD []) ++ [c]))

/-- Repeated `add_child`; adding no children leaves the node unchanged. -/
def Dom.appendChildren (d : Dom) (cs : List Dom) : Dom :=
  cs.foldl Dom.add_child d

/-- Substring test on character lists: `need` occurs contiguously in the
first argument.  Models Rust `str::contains(&str)`. -/
def containsSub (need : List Char) : List Char → Bool
  | [] => need.isEmpty
  | c :: t => need.isPrefixOf (c :: t) || containsSub need t

/-- Rust `q.contains(p)` on strings. -/
def strContains (hay need : String) : Bool :=
  containsSub need.data hay.data

/-- Modelled from the spec: `Tag::p_implies_q` is called by `Dom::p_implies_q`
(src/dom/mod.rs line 172) but its definition is absent from the sources.
Per the spec (section 4.4) the Tag-vs-Tag sufficient-condition relation is
exactly the one `satisfy_sufficient_condition` implements (same module,
identical doc examples), so it is modelled as that function. -/
def Tag.p_implies_q (p q : Tag) : Bool :=
  satisfy_sufficient_condition p q

/-- `Dom::p_implies_q` from src/dom/mod.rs lines 164-196. -/
def Dom.p_implies_q (p q : Dom) : Bool :=
  if q.dom_type = p.dom_type then
    match q.dom_type with
    | .Tag =>
      match q.get_tag, p.get_tag with
      | some qTag, some pTag => Tag.p_implies_q pTag qTag
      | _, _ => false
    | .Text =>
      match q.get_text, p.get_text with
      | some qText, some pText => strContains qText.text pText.text
      | _, _ => false
    | .Comment =>
      match q.get_comment, p.get_comment with
      | some qCom, some pCom => strContains qCom.comment pCom.comment
      | _, _ => false
  else false

/-! ## Query engine (src/searcher.rs)

The Rust functions thread a mutable result vector; they only ever push onto
it, so they are modelled as returning the list of pushed elements. -/

mutual

/-- `search_tag_exe` from src/searcher.rs lines 60-72, as the list of tags
pushed onto `res`. -/
def search_tag_exe (dom : Dom) (needle : Tag) : List Tag :=
  match dom with
  | .mk _ tag _ _ children =>
    match tag with
    | some t =>
      (if satisfy_sufficient_condition needle t then [t] else []) ++
        (match children with
         | some cs => search_tag_exe_list cs needle
         | none => [])
    | none => []

/-- The `for child in children` loop of `search_tag_exe`. -/
def search_tag_exe_list (l : List Dom) (needle : Tag) : List Tag :=
  match l with
  | [] => []
  | d :: rest => search_tag_exe d needle ++ search_tag_exe_list rest needle

end

/-- `search_tag` from src/searcher.rs lines 51-58. -/
def search_tag (dom : Dom) (needle : Tag) : Option (List Tag) :=
  let res := search_tag_exe dom needle
  if res.isEmpty then none else some res

mutual

/-- `search_tag_from_name_exe` from src/searcher.rs lines 116-129.  The
`dom.get_tag().unwrap()` on a `DomType::Tag` node without a tag payload is a
panic. -/
def search_tag_from_name_exe (dom : Dom) (name : String) : PRes (List Tag) :=
  match dom with
  | .mk dt tag _ _ children =>
    match dt with
    | .Tag =>
      match tag with
      | none => .panicked
      | some t =>
        let hit := if name = t.name then [t] else []
        match children with
        | some cs =>
          (search_tag_from_name_exe_list cs name).bind fun rest =>
            .ok (hit ++ rest)
        | none => .ok hit
    | _ => .ok []

/-- The `for child in children` loop of `search_tag_from_name_exe`. -/
def search_tag_from_name_exe_list (l : List Dom) (name : String) :
    PRes (List Tag) :=
  match l with
  | [] => .ok []
  | d :: rest =>
    (search_tag_from_name_exe d name).bind fun a =>
      (search_tag_from_name_exe_list rest name).bind fun b => .ok (a ++ b)

end

/-- `search_tag_from_name` from src/searcher.rs lines 107-114. -/
def search_tag_from_name (dom : Dom) (name : String) :
    PRes (Option (List Tag)) :=
  (search_tag_from_name_exe dom name).bind fun res =>
    .ok (if res.isEmpty then none else some res)

/-- The inner loop of `search_text_from_tag_children_exe` that collects the
text payloads of the direct children of a matched tag. -/
def collect_child_texts (l : List Dom) : List String :=
  match l with
  | [] => []
  | d :: rest =>
    (match d.get_text with
     | some t => [t.text]
     | none => []) ++ collect_child_texts rest

mutual

/-- `search_text_from_tag_children_exe` from src/searcher.rs lines 163-181. -/
def search_text_from_tag_children_exe (dom : Dom) (needle : Tag) :
    List String :=
  match dom with
  | .mk _ tag _ _ children =>
    match tag with
    | some t =>
      (if satisfy_sufficient_condition needle t then
        match children with
        | some cs => collect_child_texts cs
        | none => []
      else []) ++
        (match children with
         | some cs => search_text_exe_list cs needle
         | none => [])
    | none => []

/-- The recursive `for child in children` loop of
`search_text_from_tag_children_exe`. -/
def search_text_exe_list (l : List Dom) (needle : Tag) : List String :=
  match l with
  | [] => []
  | d :: rest =>
    search_text_from_tag_children_exe d needle ++ search_text_exe_list rest needle

end

/-- `search_text_from_tag_children` from src/searcher.rs lines 154-161. -/
def search_text_from_tag_children (dom : Dom) (needle : Tag) :
    Option (List String) :=
  let res := search_text_from_tag_children_exe dom needle
  if res.isEmpty then none else some res

/-- The node-level comparison at the top of `search_dom_exe`
(src/searcher.rs lines 293-323): the value of the local `dom_match`. -/
def search_dom_node_match (dom needle : Dom) : Bool :=
  if dom.dom_type = needle.dom_type then
    match dom.dom_type with
    | .Tag =>
      match dom.get_tag, needle.get_tag with
      | some t, some nt => satisfy_sufficient_condition nt t
      | _, _ => false
    | .Text =>
      match dom.get_text, needle.get_text with
      | some t, some nt => t.text = nt.text
      | _, _ => false
    | .Comment =>
      match dom.get_comment, needle.get_comment with
      | some c, some nc => c.comment = nc.comment
      | _, _ => false
  else false

mutual

/-- `search_dom_exe` from src/searcher.rs lines 292-383, returning the list
of subtrees pushed onto `res` together with the function's boolean result. -/
def search_dom_exe (dom needle : Dom) (parent_match : Bool) :
    List Dom × Bool :=
  let dom_match := search_dom_node_match dom needle
  if dom_match then
    if needle.get_children.isNone && !parent_match then ([dom], true)
    else
      match dom, needle with
      | .mk ddt dtag dtx dcm dchildren, .mk _ _ _ _ nchildren =>
        let lenFail :=
          match dchildren, nchildren with
          | some dc, some nc => decide (dc.length < nc.length)
          | _, _ => false
        if lenFail then ([], false)
        else
          let counted :=
            match dchildren, nchildren with
            | some dc, some nc => search_dom_count dc nc
            | _, _ => ([], 0)
          let cntFail :=
            match nchildren with
            | some nc => decide (counted.2 < nc.length)
            | none => false
          if cntFail then (counted.1, false)
          else if !parent_match then
            (counted.1 ++ [Dom.mk ddt dtag dtx dcm dchildren], true)
          else (counted.1, true)
  else
    match dom with
    | .mk _ _ _ _ dchildren =>
      match dchildren with
      | some cs => (search_dom_desc cs needle, false)
      | none => ([], false)

/-- The `for dom_child` counting loop of `search_dom_exe` (lines 343-355):
pushed subtrees plus the value of `child_match_cnt`. -/
def search_dom_count (dc nc : List Dom) : List Dom × Nat :=
  match dc with
  | [] => ([], 0)
  | d :: rest =>
    let one := search_dom_count_one d nc
    let more := search_dom_count rest nc
    (one.1 ++ more.1, one.2 + more.2)

/-- The inner `for needle_child` loop of the counting loop, for one
`dom_child`. -/
def search_dom_count_one (d : Dom) (nc : List Dom) : List Dom × Nat :=
  match nc with
  | [] => ([], 0)
  | n :: rest =>
    let r := search_dom_exe d n true
    let more := search_dom_count_one d rest
    (r.1 ++ more.1, (if r.2 then 1 else 0) + more.2)

/-- The descent loop of `search_dom_exe` when the node itself does not match
(lines 374-380); the recursive calls receive `parent_match = dom_match =
false` and their boolean results are discarded. -/
def search_dom_desc (cs : List Dom) (needle : Dom) : List Dom :=
  match cs with
  | [] => []
  | c :: rest => (search_dom_exe c needle false).1 ++ search_dom_desc rest needle

end

/-! ## Scanning cursor (src/parser/input.rs)

`usize` arithmetic: the only site where `len - 1` can underflow is reachable
exactly when the buffer is empty; there the model returns `panicked` (the
debug-build behaviour; a release build wraps and then indexes out of bounds,
panicking at the read instead). -/

/-- The ASCII cases of Rust `char::is_whitespace` (the Unicode-only
whitespace code points do not occur in any input considered here). -/
def rustIsWhitespaceChar (c : Char) : Bool :=
  c = ' ' || c = '\t' || c = '\n' || c = '\r' ||
    c.toNat = 11 || c.toNat = 12

/-- Rust `str::trim_end`. -/
def trimEnd (l : List Char) : List Char :=
  (l.reverse.dropWhile rustIsWhitespaceChar).reverse

/-- `Input` from src/parser/input.rs. -/
structure Input where
  input : List Char
  cursor : Nat
deriving Repr

/-- `Input::new`: rejects the empty document, then stores the trailing-
whitespace-trimmed character buffer.  Note the emptiness check happens on
the untrimmed text. -/
def Input.new (doc : List Char) : PRes Input :=
  if doc.length = 0 then .err "input is empty."
  else .ok { input := trimEnd doc, cursor := 0 }

/-- `Input::set_cursor`: clamps to `len - 1`; on an empty buffer the `usize`
subtraction underflows. -/
def Input.set_cursor (inp : Input) (cursor : Nat) : PRes Input :=
  if inp.input.length ≤ cursor then
    if inp.input.length = 0 then .panicked
    else .ok { inp with cursor := inp.input.length - 1 }
  else .ok { inp with cursor := cursor }

/-- `Input::next`: advance one position, no-op at the last index; `len - 1`
underflows on an empty buffer. -/
def Input.next (inp : Input) : PRes Input :=
  if inp.input.length = 0 then .panicked
  else if inp.input.length - 1 ≤ inp.cursor then .ok inp
  else .ok { inp with cursor := inp.cursor + 1 }

/-- Length of the run of `' '`/`'\n'` characters at the head of a list:
the number of iterations of the skip loop in `Input::next_char`. -/
def wsRun : List Char → Nat
  | [] => 0
  | c :: t => if c = ' ' || c = '\n' then wsRun t + 1 else 0

/-- `Input::next_char`: advance one position then skip spaces and newlines;
no-op at the last index. -/
def Input.next_char (inp : Input) : PRes Input :=
  if inp.input.length = 0 then .panicked
  else if inp.input.length - 1 ≤ inp.cursor then .ok inp
  else
    let bgn := inp.cursor + 1
    .ok { inp with cursor := bgn + wsRun (inp.input.drop bgn) }

/-- `Input::is_end`: `cursor == len - 1`; underflows on an empty buffer. -/
def Input.is_end (inp : Input) : PRes Bool :=
  if inp.input.length = 0 then .panicked
  else .ok (inp.cursor = inp.input.length - 1)

/-- `Input::expect`: reads `input[cursor]`, which is out of bounds when the
cursor is not a valid index. -/
def Input.expect (inp : Input) (exp : Char) : PRes Bool :=
  match inp.input.get? inp.cursor with
  | some c => .ok (c = exp)
  | none => .panicked

/-- `Input::expect_str`: length-guarded character-by-character comparison at
the cursor. -/
def Input.expect_str (inp : Input) (exp : List Char) : Bool :=
  if inp.input.length < inp.cursor + exp.length then false
  else exp.isPrefixOf (inp.input.drop inp.cursor)

/-- The `for i in bgn..len` scan of `Input::find`: `rem` counts the loop
iterations still to run (`len - i`), so the index `i` always satisfies
`i < l.length` when the body reads `l[i]`. -/
def find_loop (l : List Char) (needle : Char) : Nat → Nat → Option Nat
  | 0, _ => none
  | rem + 1, i =>
    if l.getD i ' ' = needle then some i else find_loop l needle rem (i + 1)

/-- `Input::find`. -/
def Input.find (inp : Input) (needle : Char) : Option Nat :=
  if inp.input.length ≤ inp.cursor then none
  else find_loop inp.input needle (inp.input.length - inp.cursor) inp.cursor

/-- Result of the inner matching loop of `Input::find_str`: full match of
the needle, a mismatching character, or the buffer ended mid-match (the
Rust loop returns `None` from the whole function in that case). -/
inductive InnerRes where
  | found
  | mismatch
  | offEnd
deriving DecidableEq, Repr

/-- The inner (`second and subsequent characters`) loop of
`Input::find_str`, comparing the remaining needle characters (`needle[j..]`,
passed as a list, so the `j == needle.len() - 1` test becomes "no needle
characters remain after this one") against `input[i..]`.  The loop is only
entered with one needle character already matched and at least one
remaining; the empty-suffix case is unreachable. -/
def find_str_inner (l : List Char) : Nat → List Char → InnerRes
  | _, [] => .mismatch
  | i, nj :: rest =>
    if l.length ≤ i then .offEnd
    else if l.getD i ' ' = nj then
      if rest.isEmpty then .found else find_str_inner l (i + 1) rest
    else .mismatch

/-- The outer `while i < len` loop of `Input::find_str`: try each start
index `i` in turn (`rem` counts the iterations still to run, `len - i`).
After a partial match the Rust code resets `i` to `bgn_idx + 1`, so each
outer iteration advances the start index by exactly one; an `offEnd` inner
result returns `None` from the whole function. -/
def find_str_loop (l needle : List Char) : Nat → Nat → Option Nat
  | 0, _ => none
  | rem + 1, i =>
    if l.getD i ' ' = needle.getD 0 ' ' then
      if needle.length = 1 then some i
      else
        match find_str_inner l (i + 1) (needle.drop 1) with
        | .found => some i
        | .offEnd => none
        | .mismatch => find_str_loop l needle rem (i + 1)
    else find_str_loop l needle rem (i + 1)

/-- `Input::find_str` (all call sites pass a non-empty needle; an empty
needle would make the Rust code panic at `needle[0]`). -/
def Input.find_str (inp : Input) (needle : List Char) : Option Nat :=
  if inp.input.length ≤ inp.cursor then none
  else find_str_loop inp.input needle (inp.input.length - inp.cursor) inp.cursor

/-- `Input::get_string`: the characters in `[bgn, end)`, rejecting empty or
inverted ranges and ranges whose end is not below the buffer length.  (The
Rust out-of-input message interpolates the indices; modelled as a constant
string.) -/
def Input.get_string (inp : Input) (bgn en : Nat) : PRes String :=
  if en ≤ bgn then .err "invalid range"
  else if inp.input.length ≤ en then .err "out of input"
  else .ok (String.mk ((inp.input.drop bgn).take (en - bgn)))

/-! ## Lexical segmenter and tree reducer (src/parser/mod.rs)

Every Rust function taking `&mut Input` is modelled as a function from
`Input` returning the result paired with the updated `Input` inside `PRes`.
Loops take a fuel argument; `fuelOut` means the loop did not finish. -/

/-- `parse_tag_attr_value` from src/parser/mod.rs lines 121-138. -/
def parse_tag_attr_value (dlmt : Char) (inp : Input) :
    PRes (String × Input) :=
  (inp.next).bind fun inp =>
    let value_bgn := inp.cursor
    match inp.find dlmt with
    | none => .err "Input ends in the middle of double quote"
    | some value_end =>
      if value_bgn = value_end then .ok ("", inp)
      else
        (inp.set_cursor value_end).bind fun inp =>
          (inp.get_string value_bgn value_end).bind fun v => .ok (v, inp)

/-- The attribute loop of `parse_tag_attr` (src/parser/mod.rs lines
159-217), carrying the accumulated attribute map. -/
def parse_tag_attr_loop (fuel : Nat) (tag_end : Nat)
    (attr_map : List (String × String)) (inp : Input) :
    PRes (List (String × String) × Input) :=
  match fuel with
  | 0 => .fuelOut
  | fuel + 1 =>
    (inp.expect '>').bind fun gt =>
    if gt then (inp.next).bind fun inp => .ok (attr_map, inp)
    else
      let attr_bgn := inp.cursor
      let attr_end := tag_end
      let attr_end :=
        match inp.find '=' with
        | some c => if c < tag_end then c else attr_end
        | none => attr_end
      let attr_end :=
        match inp.find ' ' with
        | some c => if c < attr_end then c else attr_end
        | none => attr_end
      (inp.set_cursor attr_end).bind fun inp =>
      (inp.get_string attr_bgn attr_end).bind fun attr_name =>
      (if inp.cursor ≠ tag_end then
        match inp.find '=' with
        | some c =>
          if c < tag_end then
            (inp.set_cursor c).bind fun inp =>
            (inp.next_char).bind fun inp =>
            (inp.expect '"').bind fun dq =>
            if dq then parse_tag_attr_value '"' inp
            else
              (inp.expect '\'').bind fun sq =>
              if sq then parse_tag_attr_value '\'' inp
              else .ok ("", inp)
          else .ok ("", inp)
        | none => .ok ("", inp)
      else .ok ("", inp)).bind fun (value, inp) =>
      let attr_map := attrsInsert attr_map attr_name value
      (inp.expect '>').bind fun gt2 =>
      if gt2 then (inp.next).bind fun inp => .ok (attr_map, inp)
      else (inp.next_char).bind fun inp =>
        parse_tag_attr_loop fuel tag_end attr_map inp

/-- `parse_tag_attr` from src/parser/mod.rs lines 147-227. -/
def parse_tag_attr (fuel : Nat) (tag : Tag) (inp : Input) :
    PRes (Tag × Input) :=
  match inp.find '>' with
  | none => .err "Input ends in the middle of the tag"
  | some tag_end =>
    (parse_tag_attr_loop fuel tag_end [] inp).bind fun (attr_map, inp) =>
      let removed := attrsRemove attr_map "/"
      let tag := if removed.1.isSome then { tag with terminated := true } else tag
      .ok ({ tag with attrs := some removed.2 }, inp)

/-- `parse_tag_name` from src/parser/mod.rs lines 236-274. -/
def parse_tag_name (fuel : Nat) (terminator : Bool) (inp : Input) :
    PRes (Tag × Input) :=
  let name_bgn := inp.cursor
  match inp.find '>' with
  | none => .err "Input ends in the middle of the tag"
  | some tag_end =>
    let name_end := tag_end
    let name_end :=
      match inp.find ' ' with
      | some c => if c < tag_end then c else name_end
      | none => name_end
    (inp.set_cursor name_end).bind fun inp =>
    (inp.get_string name_bgn name_end).bind fun name =>
    let tag := { Tag.new name with terminator := terminator }
    (inp.expect '>').bind fun gt =>
    if gt then (inp.next).bind fun inp => .ok (tag, inp)
    else
      (inp.next_char).bind fun inp =>
      (inp.expect '>').bind fun gt2 =>
      if gt2 then (inp.next).bind fun inp => .ok (tag, inp)
      else parse_tag_attr fuel tag inp

/-- `parse_tag` from src/parser/mod.rs lines 283-298. -/
def parse_tag (fuel : Nat) (inp : Input) : PRes (Dom × Input) :=
  (inp.next).bind fun inp =>
  (inp.expect '/').bind fun slash =>
  (if slash then (inp.next).bind fun inp => .ok (true, inp)
   else .ok (false, inp)).bind fun (terminator, inp) =>
  (parse_tag_name fuel terminator inp).bind fun (tag, inp) =>
  .ok (mkTagDom tag, inp)

/-- `parse_comment` from src/parser/mod.rs lines 305-321. -/
def parse_comment (inp : Input) : PRes (Dom × Input) :=
  let bgn := inp.cursor + 4
  match inp.find_str ['-', '-', '>'] with
  | some c =>
    (inp.set_cursor (c + 3)).bind fun inp =>
    (inp.get_string bgn c).bind fun s =>
    .ok (mkCommentDom ⟨s⟩, inp)
  | none => .err "Input ends in the middle of the comment"

/-- `parse_text` from src/parser/mod.rs lines 324-345. -/
def parse_text (inp : Input) : PRes (Dom × Input) :=
  let bgn := inp.cursor
  (match inp.find '<' with
   | some c => (inp.set_cursor c).bind fun inp => .ok (c, inp)
   | none => (inp.next_char).bind fun inp => .ok (inp.cursor, inp)).bind
    fun (en, inp) =>
  (inp.get_string bgn en).bind fun s =>
  .ok (mkTextDom ⟨s⟩, inp)

/-- `parse_text_script` from src/parser/mod.rs lines 348-364. -/
def parse_text_script (inp : Input) : PRes (Dom × Input) :=
  let bgn := inp.cursor
  match inp.find_str ['<', '/', 's', 'c', 'r', 'i', 'p', 't'] with
  | some c =>
    (inp.set_cursor c).bind fun inp =>
    (inp.get_string bgn c).bind fun s =>
    .ok (mkTextDom ⟨s⟩, inp)
  | none => .err "Input ends in the middle of the tag"

/-- The initial `while !input.expect('<') { input.next_char(); }` loop of
`create_dom_vec` (src/parser/mod.rs lines 410-412). -/
def seek_first_lt (fuel : Nat) (inp : Input) : PRes Input :=
  match fuel with
  | 0 => .fuelOut
  | fuel + 1 =>
    (inp.expect '<').bind fun lt =>
    if lt then .ok inp
    else (inp.next_char).bind fun inp => seek_first_lt fuel inp

/-- The main `while !input.is_end()` loop of `create_dom_vec`
(src/parser/mod.rs lines 422-469). -/
def create_dom_vec_loop (fuel : Nat) (inp : Input) :
    PRes (List Dom × Input) :=
  match fuel with
  | 0 => .fuelOut
  | fuel + 1 =>
    (inp.is_end).bind fun fin =>
    if fin then .ok ([], inp)
    else
      if inp.expect_str ['<', '!', '-', '-'] then
        (parse_comment inp).bind fun (dom, inp) =>
        (create_dom_vec_loop fuel inp).bind fun (rest, inp) =>
        .ok (dom :: rest, inp)
      else
        (inp.expect '<').bind fun lt =>
        if lt then
          (parse_tag fuel inp).bind fun (dom, inp) =>
          let is_bgn_script :=
            match dom.dom_type, dom.get_tag with
            | .Tag, some t => t.name = "script" && !t.terminator
            | _, _ => false
          if is_bgn_script then
            (inp.expect '<').bind fun lt2 =>
            if !lt2 then
              (parse_text_script inp).bind fun (sdom, inp) =>
              (create_dom_vec_loop fuel inp).bind fun (rest, inp) =>
              .ok (dom :: sdom :: rest, inp)
            else
              (create_dom_vec_loop fuel inp).bind fun (rest, inp) =>
              .ok (dom :: rest, inp)
          else
            (create_dom_vec_loop fuel inp).bind fun (rest, inp) =>
            .ok (dom :: rest, inp)
        else
          (inp.expect ' ').bind fun sp =>
          (if sp then .ok true else inp.expect '\n').bind fun ws =>
          (if ws then inp.next_char else .ok inp).bind fun inp =>
          (inp.expect '<').bind fun lt3 =>
          if !lt3 then
            (parse_text inp).bind fun (dom, inp) =>
            (create_dom_vec_loop fuel inp).bind fun (rest, inp) =>
            .ok (dom :: rest, inp)
          else create_dom_vec_loop fuel inp

/-- `create_dom_vec` from src/parser/mod.rs lines 406-471. -/
def create_dom_vec (fuel : Nat) (inp : Input) : PRes (List Dom × Input) :=
  (seek_first_lt fuel inp).bind fun inp => create_dom_vec_loop fuel inp

/-- The indexed scan of `search_terminator`. -/
def search_terminator_from (v : List Dom) (starter : Tag) (i : Nat) :
    PRes (Option Nat) :=
  match v with
  | [] => .ok none
  | d :: rest =>
    match d.dom_type with
    | .Tag =>
      match d.get_tag with
      | none => .panicked
      | some t =>
        if t.terminator && starter.name = t.name then .ok (some i)
        else search_terminator_from rest starter (i + 1)
    | _ => search_terminator_from rest starter (i + 1)

/-- `search_terminator` from src/parser/mod.rs lines 486-501. -/
def search_terminator (v : List Dom) (starter : Tag) : PRes (Option Nat) :=
  search_terminator_from v starter 0

/-- `create_dom_tree` from src/parser/mod.rs lines 504-533, as a function
from the flat fragment list to the pair (children added to the parent,
fragments left in the vector when the loop returned early at a closing
marker). -/
def create_dom_tree (fuel : Nat) (v : List Dom) :
    PRes (List Dom × List Dom) :=
  match fuel, v with
  | _, [] => .ok ([], [])
  | 0, _ :: _ => .fuelOut
  | fuel + 1, d :: rest =>
    match d.dom_type with
    | .Tag =>
      match d.get_tag with
      | none => .panicked
      | some tag =>
        if tag.terminator then .ok ([], rest)
        else if !tag.terminated then
          (search_terminator rest tag).bind fun tIdx =>
            match tIdx with
            | some 0 =>
              (create_dom_tree fuel rest.tail).bind fun r2 =>
                .ok (d :: r2.1, r2.2)
            | some (_ + 1) =>
              (create_dom_tree fuel rest).bind fun r1 =>
                let d := d.appendChildren r1.1
                (create_dom_tree fuel r1.2).bind fun r2 =>
                  .ok (d :: r2.1, r2.2)
            | none =>
              (create_dom_tree fuel rest).bind fun r2 =>
                .ok (d :: r2.1, r2.2)
        else
          (create_dom_tree fuel rest).bind fun r2 => .ok (d :: r2.1, r2.2)
    | _ =>
      (create_dom_tree fuel rest).bind fun r2 => .ok (d :: r2.1, r2.2)

/-- `parse` from src/parser/mod.rs lines 104-112 (the published crate
propagates the `Input::new` error with `?`). -/
def parse (fuel : Nat) (doc : List Char) : PRes Dom :=
  (Input.new doc).bind fun inp =>
  (create_dom_vec fuel inp).bind fun (dom_vec, _) =>
  (create_dom_tree fuel dom_vec).bind fun r =>
  .ok (Dom.new_root.appendChildren r.1)

/-- `search_dom` from src/searcher.rs lines 280-287. -/
def search_dom (dom needle : Dom) : Option Dom :=
  let res := Dom.new_root.appendChildren (search_dom_exe dom needle false).1
  match res.get_children with
  | some _ => some res
  | none => none

/-- `Dom::search` from src/dom/mod.rs lines 348-360: parses the needle text
and unconditionally unwraps the first child of the parsed root
(`needle.get_children().unwrap().get(0).unwrap()`). -/
def Dom.search (fuel : Nat) (d : Dom) (needle : List Char) :
    PRes (Option (List Dom)) :=
  (parse fuel needle).bind fun ndom =>
    match ndom.get_children with
    | none => .panicked
    | some [] => .panicked
    | some (n0 :: _) =>
      match search_dom d n0 with
      | some root_dom => .ok root_dom.get_children
      | none => .ok none

/-! ## Specification-side definitions

Definitions in this section follow the specification's words (not the
sources); each is compared against the corresponding source function. -/

/-- The tag-vs-tag matching condition as the specification words it:
names exactly equal and, for every attribute key in P's attribute mapping,
Q has that key and either P's value is the empty string or P's value equals
Q's value; a P with no attribute mapping passes the attribute check
trivially.  Written from the spec for comparison with
`satisfy_sufficient_condition`. -/
def claimedTagCondition (p q : Tag) : Bool :=
  (q.name = p.name) &&
    (match p.attrs with
     | none => true
     | some pAttrs =>
       pAttrs.all fun pkv =>
         match q.get_attr pkv.1 with
         | some qv => pkv.2 = "" || pkv.2 = qv
         | none => false)

/-- Whether `d` is the closing marker that ends `starter`'s scope: a Tag
node whose tag is a terminator bearing `starter`'s exact name (the
condition tested by the body of `search_terminator`). -/
def closerFor (starter : Tag) (d : Dom) : Bool :=
  match d.dom_type, d.get_tag with
  | DomType.Tag, some t => t.terminator && starter.name = t.name
  | _, _ => false

/-- An opening tag fragment (as the segmenter produces it). -/
def openTag (n : String) : Dom := mkTagDom (Tag.new n)

/-- A closing-marker fragment `</n>`. -/
def closeTag (n : String) : Dom := mkTagDom { Tag.new n with terminator := true }

/-- The remaining fragments following the opener `<a>` in the C6
counterexample: `<b> </a> T </b> </a>`. -/
def c6rest : List Dom :=
  [openTag "b", closeTag "a", mkTextDom ⟨"T"⟩, closeTag "b", closeTag "a"]

mutual

/-- Recursive well-formedness of a self-closed tag's childlessness: every
Tag node in the tree whose `terminated` (self-closed) flag is set has no
children. -/
def selfClosedChildless : Dom → Bool
  | .mk dt tag _ _ children =>
    (match dt, tag with
     | DomType.Tag, some t => !t.terminated || children.isNone
     | _, _ => true) &&
    (match children with
     | some cs => selfClosedChildlessList cs
     | none => true)

/-- `selfClosedChildless` over a list of trees. -/
def selfClosedChildlessList : List Dom → Bool
  | [] => true
  | d :: rest => selfClosedChildless d && selfClosedChildlessList rest

end

/-- Shape of every fragment the lexical segmenter emits: a tag, text or
comment node with exactly the matching payload set and no children. -/
def flatFragment (d : Dom) : Prop :=
  (∃ t, d = mkTagDom t) ∨ (∃ x, d = mkTextDom x) ∨ (∃ c, d = mkCommentDom c)

/-- `needle` occurs contiguously in `l` starting at index `k` (the equation
forces `k + needle.length ≤ l.length`, so in-bounds occurrence). -/
def occursAt (l needle : List Char) (k : Nat) : Prop :=
  (l.drop k).take needle.length = needle

/-- `<li class="key1"/>` pattern/candidate child node. -/
def c1liK1 : Dom := mkTagDom ((Tag.new "li").set_attr "class" "key1")

/-- `<li class="key2"/>` pattern child node. -/
def c1liK2 : Dom := mkTagDom ((Tag.new "li").set_attr "class" "key2")

/-- The C1 pattern: `<ul class="targetList">` requiring children of class
`key1` and `key2`. -/
def c1needle : Dom :=
  Dom.mk DomType.Tag (some ((Tag.new "ul").set_attr "class" "targetList"))
    none none (some [c1liK1, c1liK2])

/-- The C1 candidate: a `<ul class="targetList">` whose two children are
both of class `key1`; no child matches the pattern's `key2` child. -/
def c1cand : Dom :=
  Dom.mk DomType.Tag (some ((Tag.new "ul").set_attr "class" "targetList"))
    none none (some [c1liK1, c1liK1])

/- Field/payload well-formedness of a node and (recursively) its children:
a Tag node carries a tag payload and nothing else, a Text (Comment) node
carries exactly a text (comment) payload and has no children; every tree
`parse` returns satisfies this. -/
mutual

def wfDom : Dom → Bool
  | .mk dt tag tx cm children =>
    (match dt with
     | DomType.Tag => tag.isSome && tx.isNone && cm.isNone
     | DomType.Text => tx.isSome && tag.isNone && cm.isNone && children.isNone
     | DomType.Comment =>
       cm.isSome && tag.isNone && tx.isNone && children.isNone) &&
    (match children with
     | some cs => wfDomList cs
     | none => true)

def wfDomList : List Dom → Bool
  | [] => true
  | d :: rest => wfDom d && wfDomList rest

end

/- Every node of the tree in pre-order: the node itself followed by all
nodes of its children. -/
mutual

def allNodes : Dom → List Dom
  | .mk dt tag tx cm children =>
    Dom.mk dt tag tx cm children ::
      (match children with
       | some cs => allNodesList cs
       | none => [])

def allNodesList : List Dom → List Dom
  | [] => []
  | d :: rest => allNodes d ++ allNodesList rest

end

/-- The tag collected from one node by `search_tag`, if any. -/
def tagFilter (needle : Tag) (n : Dom) : Option Tag :=
  match n.get_tag with
  | some t => if satisfy_sufficient_condition needle t then some t else none
  | none => none

/-- The tag collected from one node by `search_tag_from_name`, if any. -/
def nameFilter (name : String) (n : Dom) : Option Tag :=
  match n.get_tag with
  | some t => if name = t.name then some t else none
  | none => none

/-- The texts collected from one node by `search_text_from_tag_children`. -/
def textFilter (needle : Tag) (n : Dom) : List String :=
  match n.get_tag with
  | some t =>
    if satisfy_sufficient_condition needle t then
      collect_child_texts (n.get_children.getD [])
    else []
  | none => []

/-- The tree `parse` returns for the document `<a>x</a>`. -/
def sampleC8 : Dom :=
  Dom.mk DomType.Tag (some (Tag.new "root")) none none
    (some [Dom.mk DomType.Tag (some (Tag.new "a")) none none
      (some [mkTextDom ⟨"x"⟩])])

/-! ## Supporting lemmas -/

theorem PRes.bind_eq_ok {α β : Type} {x : PRes α} {f : α → PRes β} {b : β}
    (h : x.bind f = PRes.ok b) : ∃ a, x = PRes.ok a ∧ f a = PRes.ok b := by
  cases x with
  | ok a => exact ⟨a, rfl, h⟩
  | err e => exact absurd h (by simp [PRes.bind])
  | panicked => exact absurd h (by simp [PRes.bind])
  | fuelOut => exact absurd h (by simp [PRes.bind])

theorem isPrefixOf_self (l : List Char) : l.isPrefixOf l = true := by
  induction l with
  | nil => rfl
  | cons c t ih => simp [List.isPrefixOf, ih]

theorem containsSub_self (l : List Char) : containsSub l l = true := by
  cases l with
  | nil => rfl
  | cons c t => simp [containsSub, isPrefixOf_self]

theorem strContains_self (s : String) : strContains s s = true :=
  containsSub_self s.data

/-! ## Claims -/

/-- C1, counterexample: `search_dom_exe` accepts the candidate
`<ul class="targetList">[li.key1, li.key1]` against the pattern
`<ul class="targetList">[li.key1, li.key2]` (it returns `true`), yet the
pattern child `li.key2` matches no child of the candidate: the code only
compares the *total count* of matching (candidate-child, pattern-child)
pairs against the number of pattern children, and the single candidate
child class satisfies the one pattern child twice. -/
theorem C1_counterexample :
    (search_dom_exe c1cand c1needle false).2 = true ∧
    ((c1needle.get_children.getD []).all fun pc =>
      (c1cand.get_children.getD []).any fun cc =>
        (search_dom_exe cc pc true).2) = false := by
  constructor <;>
    simp [c1cand, c1needle, c1liK1, c1liK2, search_dom_exe, search_dom_count,
      search_dom_count_one, search_dom_desc, search_dom_node_match,
      satisfy_sufficient_condition, Tag.set_attr, Tag.new, attrsInsert,
      attrsGet, Dom.dom_type, Dom.get_tag, Dom.get_children, mkTagDom]

/-- C1, amended: when the pattern node P has children, `search_dom_exe`
accepts a node-matching candidate C only if C has at least as many children
as P and the total number of (C-child, P-child) pairs related by the
recursive match (the value of `child_match_cnt`) is at least the number of
P's children; a single child of C that matches several children of P can
therefore stand in for P-children that match no child of C at all, and no
per-P-child cover is guaranteed. -/
theorem C1_amended_child_count (dom needle : Dom) (pm : Bool)
    (nc : List Dom) (hnc : needle.get_children = some nc)
    (h : (search_dom_exe dom needle pm).2 = true) :
    search_dom_node_match dom needle = true ∧
    (dom.get_children = none → nc = []) ∧
    (∀ dc, dom.get_children = some dc →
      nc.length ≤ dc.length ∧ nc.length ≤ (search_dom_count dc nc).2) := by
  obtain ⟨ddt, dtag, dtx, dcm, dch⟩ := dom
  obtain ⟨ndt, ntag, ntx, ncm, nch⟩ := needle
  have hnch : nch = some nc := hnc
  subst hnch
  unfold search_dom_exe at h
  cases hb : search_dom_node_match
      (Dom.mk ddt dtag dtx dcm dch)
      (Dom.mk ndt ntag ntx ncm (some nc)) with
  | false =>
    rw [hb] at h
    simp only [Bool.false_eq_true, if_false] at h
    exact absurd h (by cases dch <;> simp)
  | true =>
    rw [hb] at h
    simp only [if_true, Dom.get_children, Option.isNone_some,
      Bool.false_and, Bool.false_eq_true, if_false] at h
    refine ⟨rfl, ?_, ?_⟩
    · intro hdch
      have hd : dch = none := hdch
      subst hd
      simp only [] at h
      by_contra hne
      have hlen : 0 < nc.length := by
        cases nc with
        | nil => exact absurd rfl hne
        | cons a l => simp
      rw [if_neg (by simp), if_pos (by simpa using hlen)] at h
      simp at h
    · intro dc hdc
      have hd : dch = some dc := hdc
      subst hd
      simp only [] at h
      by_cases hlen : dc.length < nc.length
      · rw [if_pos (by simpa using hlen)] at h
        simp at h
      · rw [if_neg (by simpa using hlen)] at h
        by_cases hcnt : (search_dom_count dc nc).2 < nc.length
        · rw [if_pos (by simpa using hcnt)] at h
          simp at h
        · exact ⟨by omega, by omega⟩

/-- Witness for the amended C1 statement at the concrete candidate and
pattern of the counterexample. -/
theorem C1_amended_witness :
    search_dom_node_match c1cand c1needle = true :=
  (C1_amended_child_count c1cand c1needle false [c1liK1, c1liK2] rfl
    (by simp [c1cand, c1needle, c1liK1, c1liK2, search_dom_exe,
      search_dom_count, search_dom_count_one, search_dom_desc,
      search_dom_node_match, satisfy_sufficient_condition, Tag.set_attr,
      Tag.new, attrsInsert, attrsGet, Dom.dom_type, Dom.get_tag,
      Dom.get_children, mkTagDom])).1

/-- C2, counterexample: the claimed if-and-only-if characterisation of
`satisfy_sufficient_condition` fails when the pattern carries a present but
empty attribute mapping and the candidate carries none: every attribute key
of the pattern (there are none) trivially has a matching key on the
candidate, yet the function returns `false`, because the code rejects a
missing candidate attribute map before iterating the pattern's entries. -/
theorem C2_counterexample :
    satisfy_sufficient_condition
        { name := "a", attrs := some [], terminated := false,
          terminator := false }
        (Tag.new "a") = false ∧
    claimedTagCondition
        { name := "a", attrs := some [], terminated := false,
          terminator := false }
        (Tag.new "a") = true := by
  constructor <;> rfl

/-- C2, amended: `satisfy_sufficient_condition p q` returns `true` iff the
names are exactly equal and either `p` has no attribute mapping at all, or
`q` has an attribute mapping and every attribute entry of `p` finds its key
on `q` with an empty-string or exactly equal value.  (The amendment: when
`p`'s attribute mapping is present — even empty — `q` must also have one;
extra attributes of `q` still never affect the result.) -/
theorem C2_amended_characterization (p q : Tag) :
    satisfy_sufficient_condition p q = true ↔
      (q.name = p.name ∧
        (p.attrs = none ∨
          ∃ pa qa, p.attrs = some pa ∧ q.attrs = some qa ∧
            ∀ kv ∈ pa, ∃ qv, attrsGet qa kv.1 = some qv ∧
              (kv.2 = "" ∨ kv.2 = qv))) := by
  unfold satisfy_sufficient_condition
  split
  · rename_i hname
    cases hpa : p.attrs with
    | none => simp [hname]
    | some pa =>
      cases hqa : q.attrs with
      | none => simp [hname]
      | some qa =>
        simp only [List.all_eq_true, hname, true_and, Option.some.injEq,
          reduceCtorEq, false_or]
        constructor
        · intro h
          refine ⟨pa, qa, rfl, rfl, fun kv hkv => ?_⟩
          have := h kv hkv
          cases hg : attrsGet qa kv.1 with
          | none => rw [hg] at this; simp at this
          | some qv =>
            rw [hg] at this
            simp only [Bool.or_eq_true, decide_eq_true_eq] at this
            exact ⟨qv, rfl, this⟩
        · rintro ⟨pa', qa', hpa', hqa', h⟩
          subst hpa'
          subst hqa'
          intro kv hkv
          obtain ⟨qv, hg, hv⟩ := h kv hkv
          rw [hg]
          simp only [Bool.or_eq_true, decide_eq_true_eq]
          exact hv
  · rename_i hname
    simp only [Bool.false_eq_true, false_iff]
    intro h
    exact hname h.1

/-- C3, counterexample: the claim that the node-level comparison inside
`search_dom_exe` agrees with `Dom::p_implies_q` — holding on Text-vs-Text
pairs iff the candidate's content contains the pattern's content as a
substring — fails on the pattern text "def" and candidate text "abcdefghi":
`p_implies_q` accepts (substring containment) but the inline comparison in
`search_dom_exe` rejects, because it compares text contents with exact
equality. -/
theorem C3_counterexample :
    search_dom_node_match (mkTextDom ⟨"abcdefghi"⟩) (mkTextDom ⟨"def"⟩) =
        false ∧
    Dom.p_implies_q (mkTextDom ⟨"def"⟩) (mkTextDom ⟨"abcdefghi"⟩) = true := by
  constructor <;> rfl

/-- C3, amended: the node-level comparison used by `search_dom` implies
`Dom::p_implies_q` and agrees with it on every pair whose candidate is a
Tag node, but on Text-vs-Text pairs it holds iff the two string contents
are exactly equal (likewise for Comment-vs-Comment), so the two relations
differ exactly when the pattern's content is a strict substring of the
candidate's. -/
theorem C3_amended_characterization (dom needle : Dom) :
    (search_dom_node_match dom needle = true →
      Dom.p_implies_q needle dom = true) ∧
    (dom.dom_type = DomType.Tag →
      search_dom_node_match dom needle = Dom.p_implies_q needle dom) ∧
    (dom.dom_type = DomType.Text → needle.dom_type = DomType.Text →
      (search_dom_node_match dom needle = true ↔
        ∃ dt nt, dom.get_text = some dt ∧ needle.get_text = some nt ∧
          dt.text = nt.text)) := by
  obtain ⟨ddt, dtag, dtx, dcm, dch⟩ := dom
  obtain ⟨ndt, ntag, ntx, ncm, nch⟩ := needle
  unfold search_dom_node_match Dom.p_implies_q Dom.dom_type Dom.get_tag
    Dom.get_text Dom.get_comment
  refine ⟨?_, ?_, ?_⟩
  · intro h
    cases ddt <;> cases ndt <;> simp_all <;>
      [cases dtag; cases dtx; cases dcm] <;>
      [skip; cases ntag; skip; cases ntx; skip; cases ncm] <;>
      simp_all [Tag.p_implies_q, strContains]
    · exact containsSub_self _
    · exact containsSub_self _
  · intro h
    cases ddt <;> simp_all
    cases ndt <;> simp_all
    cases dtag <;> cases ntag <;> simp [Tag.p_implies_q]
  · intro h1 h2
    cases ddt <;> simp_all
    cases ndt <;> simp_all
    cases dtx <;> cases ntx <;> simp_all

/-- Witness for the amended C3 characterisation at concrete nodes. -/
theorem C3_amended_witness :
    search_dom_node_match (mkTagDom (Tag.new "a")) (mkTextDom ⟨"x"⟩) =
      Dom.p_implies_q (mkTextDom ⟨"x"⟩) (mkTagDom (Tag.new "a")) ∧
    (search_dom_node_match (mkTextDom ⟨"ab"⟩) (mkTextDom ⟨"ab"⟩) = true ↔
      ∃ dt nt, (mkTextDom ⟨"ab"⟩).get_text = some dt ∧
        (mkTextDom ⟨"ab"⟩).get_text = some nt ∧ dt.text = nt.text) :=
  ⟨(C3_amended_characterization (mkTagDom (Tag.new "a")) (mkTextDom ⟨"x"⟩)).2.1
      rfl,
   (C3_amended_characterization (mkTextDom ⟨"ab"⟩) (mkTextDom ⟨"ab"⟩)).2.2
      rfl rfl⟩

/-- C5: the cursor-safety claim fails on the whitespace-only input " ":
its byte length is non-zero, so `Input::new` accepts it, but trailing
whitespace is then trimmed, leaving an empty character buffer on which the
initial cursor 0 is not a valid index; `expect` reads `input[0]` out of
bounds (a panic), and that panic surfaces from `parse(" ")`. -/
theorem C5_whitespace_input_reads_out_of_bounds :
    Input.new " ".data = PRes.ok { input := [], cursor := 0 } ∧
    ¬ (0 < ([] : List Char).length) ∧
    Input.expect { input := [], cursor := 0 } 'a' = PRes.panicked ∧
    parse 5 " ".data = PRes.panicked :=
  ⟨rfl, by simp, rfl, rfl⟩

/-- C10: `parse` accepts the one-character pattern "<" and returns the bare
synthetic root with no children; `Dom::search` on that pattern then panics
(it unconditionally unwraps the parsed pattern root's children) whatever
the haystack tree is. -/
theorem C10_search_panics_on_childless_pattern (d : Dom) :
    parse 5 ['<'] = PRes.ok Dom.new_root ∧
    Dom.new_root.get_children = none ∧
    Dom.search 5 d ['<'] = PRes.panicked :=
  ⟨rfl, rfl, rfl⟩

/-- On the buffer "abc" the `<`-seeking loop of `create_dom_vec` never
terminates: `expect('<')` is false at every reachable cursor and
`next_char` is a no-op once the cursor reaches the last index. -/
theorem seek_first_lt_abc_fuelOut (fuel : Nat) :
    ∀ c, c < 3 →
      seek_first_lt fuel { input := ['a', 'b', 'c'], cursor := c } =
        PRes.fuelOut := by
  induction fuel with
  | zero => intro c _; rfl
  | succ n ih =>
    intro c hc
    interval_cases c
    · show PRes.bind _ _ = _
      have : Input.expect { input := ['a', 'b', 'c'], cursor := 0 } '<' =
          PRes.ok false := rfl
      rw [this]
      show seek_first_lt n { input := ['a', 'b', 'c'], cursor := 1 } = _
      exact ih 1 (by omega)
    · show PRes.bind _ _ = _
      have : Input.expect { input := ['a', 'b', 'c'], cursor := 1 } '<' =
          PRes.ok false := rfl
      rw [this]
      show seek_first_lt n { input := ['a', 'b', 'c'], cursor := 2 } = _
      exact ih 2 (by omega)
    · show PRes.bind _ _ = _
      have : Input.expect { input := ['a', 'b', 'c'], cursor := 2 } '<' =
          PRes.ok false := rfl
      rw [this]
      show seek_first_lt n { input := ['a', 'b', 'c'], cursor := 2 } = _
      exact ih 2 (by omega)

theorem search_terminator_from_none (v : List Dom) (starter : Tag) :
    ∀ i0, search_terminator_from v starter i0 = PRes.ok none →
      ∀ k d, v.get? k = some d → closerFor starter d = false := by
  induction v with
  | nil => intro i0 _ k d hk; simp at hk
  | cons x rest ih =>
    intro i0 h k d hk
    obtain ⟨xdt, xtag, xtx, xcm, xch⟩ := x
    cases xdt with
    | Tag =>
      cases xtag with
      | none =>
        simp [search_terminator_from, Dom.dom_type, Dom.get_tag] at h
      | some t =>
        simp only [search_terminator_from, Dom.dom_type, Dom.get_tag] at h
        split at h
        · simp at h
        · rename_i hcond
          cases k with
          | zero =>
            obtain rfl : Dom.mk DomType.Tag (some t) xtx xcm xch = d := by
              injection hk
            simp only [closerFor, Dom.dom_type, Dom.get_tag]
            simpa using hcond
          | succ k' => exact ih (i0 + 1) h k' d (by simpa using hk)
    | Text =>
      simp only [search_terminator_from, Dom.dom_type] at h
      cases k with
      | zero =>
        obtain rfl : Dom.mk DomType.Text xtag xtx xcm xch = d := by injection hk
        simp [closerFor, Dom.dom_type]
      | succ k' => exact ih (i0 + 1) h k' d (by simpa using hk)
    | Comment =>
      simp only [search_terminator_from, Dom.dom_type] at h
      cases k with
      | zero =>
        obtain rfl : Dom.mk DomType.Comment xtag xtx xcm xch = d := by
          injection hk
        simp [closerFor, Dom.dom_type]
      | succ k' => exact ih (i0 + 1) h k' d (by simpa using hk)

theorem search_terminator_from_some (v : List Dom) (starter : Tag) :
    ∀ i0 i, search_terminator_from v starter i0 = PRes.ok (some i) →
      i0 ≤ i ∧
      (∃ d, v.get? (i - i0) = some d ∧ closerFor starter d = true) ∧
      ∀ k, k < i - i0 → ∀ d, v.get? k = some d →
        closerFor starter d = false := by
  induction v with
  | nil => intro i0 i h; exact absurd h (by simp [search_terminator_from])
  | cons x rest ih =>
    intro i0 i h
    obtain ⟨xdt, xtag, xtx, xcm, xch⟩ := x
    cases xdt with
    | Tag =>
      cases xtag with
      | none =>
        simp [search_terminator_from, Dom.dom_type, Dom.get_tag] at h
      | some t =>
        simp only [search_terminator_from, Dom.dom_type, Dom.get_tag] at h
        split at h
        · rename_i hcond
          obtain rfl : i0 = i := by
            injection h with h'
            injection h'
          refine ⟨Nat.le_refl _, ⟨Dom.mk DomType.Tag (some t) xtx xcm xch,
            by simp, ?_⟩, ?_⟩
          · simp only [closerFor, Dom.dom_type, Dom.get_tag]
            simpa using hcond
          · intro k hk; omega
        · rename_i hcond
          obtain ⟨h1, ⟨d, hd, hdc⟩, hmin⟩ := ih (i0 + 1) i h
          refine ⟨by omega, ⟨d, ?_, hdc⟩, ?_⟩
          · have heq : i - i0 = (i - (i0 + 1)) + 1 := by omega
            rw [heq]; simpa using hd
          · intro k hk d' hd'
            cases k with
            | zero =>
              obtain rfl : Dom.mk DomType.Tag (some t) xtx xcm xch = d' := by
                injection hd'
              simp only [closerFor, Dom.dom_type, Dom.get_tag]
              simpa using hcond
            | succ k' =>
              exact hmin k' (by omega) d' (by simpa using hd')
    | Text =>
      simp only [search_terminator_from, Dom.dom_type] at h
      obtain ⟨h1, ⟨d, hd, hdc⟩, hmin⟩ := ih (i0 + 1) i h
      refine ⟨by omega, ⟨d, ?_, hdc⟩, ?_⟩
      · have heq : i - i0 = (i - (i0 + 1)) + 1 := by omega
        rw [heq]; simpa using hd
      · intro k hk d' hd'
        cases k with
        | zero =>
          obtain rfl : Dom.mk DomType.Text xtag xtx xcm xch = d' := by
            injection hd'
          simp [closerFor, Dom.dom_type]
        | succ k' =>
          exact hmin k' (by omega) d' (by simpa using hd')
    | Comment =>
      simp only [search_terminator_from, Dom.dom_type] at h
      obtain ⟨h1, ⟨d, hd, hdc⟩, hmin⟩ := ih (i0 + 1) i h
      refine ⟨by omega, ⟨d, ?_, hdc⟩, ?_⟩
      · have heq : i - i0 = (i - (i0 + 1)) + 1 := by omega
        rw [heq]; simpa using hd
      · intro k hk d' hd'
        cases k with
        | zero =>
          obtain rfl : Dom.mk DomType.Comment xtag xtx xcm xch = d' := by
            injection hd'
          simp [closerFor, Dom.dom_type]
        | succ k' =>
          exact hmin k' (by omega) d' (by simpa using hd')

/-- C6, counterexample: for the flat sequence
`<a> <b> </a> T </b> </a>` the first closing marker named "a" stands at
index 1 of the remaining sequence, so the fragments between opener and
closer are just `<b>`; yet the reducer gives `<a>` the two children
`<b>` and the text `T` — the text fragment lies beyond the same-named
closer.  Reducing only the between-fragments would give one child, so the
claim's description of the children is false. -/
theorem C6_counterexample :
    search_terminator c6rest (Tag.new "a") = PRes.ok (some 1) ∧
    create_dom_tree 20 (openTag "a" :: c6rest) =
      PRes.ok ([Dom.mk DomType.Tag (some (Tag.new "a")) none none
        (some [openTag "b", mkTextDom ⟨"T"⟩])], []) ∧
    create_dom_tree 20 (c6rest.take 1) = PRes.ok ([openTag "b"], []) ∧
    ([openTag "b", mkTextDom ⟨"T"⟩] : List Dom).length ≠
      ([openTag "b"] : List Dom).length :=
  ⟨rfl, rfl, rfl, by simp⟩

/-- C6, amended: when the head fragment is an opening, non-self-closed tag,
the reducer (i) looks up the first closing marker in the remaining sequence
bearing the identical tag name, ignoring nesting depth; (ii) if none
exists, the tag is kept childless and reduction continues on the remaining
fragments; (iii) if the closer is adjacent, it is dropped and the tag is
kept childless; (iv) otherwise the opener's children are produced by
recursively reducing the *entire* remaining sequence — which stops at the
first closing marker reached at the opener's level and may therefore
consume fragments lying beyond the found same-named closer — rather than
exactly the fragments between opener and closer. -/
theorem C6_amended_reducer_behaviour (fuel : Nat) (t : Tag)
    (rest : List Dom) (hterm : t.terminator = false)
    (hclosed : t.terminated = false) :
    (∀ r, search_terminator rest t = PRes.ok r →
      (r = none → ∀ k d, rest.get? k = some d → closerFor t d = false) ∧
      (∀ i, r = some i →
        (∃ d, rest.get? i = some d ∧ closerFor t d = true) ∧
        ∀ k, k < i → ∀ d, rest.get? k = some d →
          closerFor t d = false)) ∧
    (search_terminator rest t = PRes.ok none →
      create_dom_tree (fuel + 1) (mkTagDom t :: rest) =
        (create_dom_tree fuel rest).bind fun r2 =>
          PRes.ok (mkTagDom t :: r2.1, r2.2)) ∧
    (search_terminator rest t = PRes.ok (some 0) →
      create_dom_tree (fuel + 1) (mkTagDom t :: rest) =
        (create_dom_tree fuel rest.tail).bind fun r2 =>
          PRes.ok (mkTagDom t :: r2.1, r2.2)) ∧
    (∀ k, search_terminator rest t = PRes.ok (some (k + 1)) →
      create_dom_tree (fuel + 1) (mkTagDom t :: rest) =
        (create_dom_tree fuel rest).bind fun r1 =>
          (create_dom_tree fuel r1.2).bind fun r2 =>
            PRes.ok ((mkTagDom t).appendChildren r1.1 :: r2.1, r2.2)) ∧
    (mkTagDom t).get_children = none := by
  refine ⟨?_, ?_, ?_, ?_, rfl⟩
  · intro r hr
    constructor
    · rintro rfl
      exact fun k d hk => search_terminator_from_none rest t 0 hr k d hk
    · rintro i rfl
      obtain ⟨_, ⟨d, hd, hdc⟩, hmin⟩ :=
        search_terminator_from_some rest t 0 i hr
      exact ⟨⟨d, by simpa using hd, hdc⟩,
        fun k hk d' hd' => hmin k (by omega) d' hd'⟩
  · intro h
    simp [create_dom_tree, mkTagDom, Dom.dom_type, Dom.get_tag, hterm,
      hclosed, h, PRes.bind]
  · intro h
    simp [create_dom_tree, mkTagDom, Dom.dom_type, Dom.get_tag, hterm,
      hclosed, h, PRes.bind]
  · intro k h
    simp [create_dom_tree, mkTagDom, Dom.dom_type, Dom.get_tag, hterm,
      hclosed, h, PRes.bind]

/-- Witness for the amended C6 behaviour: a concrete application in the
no-closer case. -/
theorem C6_amended_witness :
    create_dom_tree 6 (mkTagDom (Tag.new "a") :: []) =
      (create_dom_tree 5 ([] : List Dom)).bind fun r2 =>
        PRes.ok (mkTagDom (Tag.new "a") :: r2.1, r2.2) :=
  (C6_amended_reducer_behaviour 5 (Tag.new "a") [] rfl rfl).2.1 rfl

theorem parse_tag_shape {fuel : Nat} {inp : Input} {d : Dom} {inp' : Input}
    (h : parse_tag fuel inp = PRes.ok (d, inp')) : ∃ t, d = mkTagDom t := by
  unfold parse_tag at h
  obtain ⟨inp1, _, h⟩ := PRes.bind_eq_ok h
  obtain ⟨sl, _, h⟩ := PRes.bind_eq_ok h
  obtain ⟨⟨terminator, inp2⟩, _, h⟩ := PRes.bind_eq_ok h
  obtain ⟨⟨tg, inp3⟩, _, h⟩ := PRes.bind_eq_ok h
  simp at h
  exact ⟨tg, h.1.symm⟩

theorem parse_comment_shape {inp : Input} {d : Dom} {inp' : Input}
    (h : parse_comment inp = PRes.ok (d, inp')) : ∃ c, d = mkCommentDom c := by
  unfold parse_comment at h
  cases hm : inp.find_str ['-', '-', '>'] with
  | some c =>
    rw [hm] at h
    obtain ⟨inp1, _, h⟩ := PRes.bind_eq_ok h
    obtain ⟨s, _, h⟩ := PRes.bind_eq_ok h
    simp at h
    exact ⟨⟨s⟩, h.1.symm⟩
  | none => rw [hm] at h; exact absurd h (by simp)

theorem parse_text_shape {inp : Input} {d : Dom} {inp' : Input}
    (h : parse_text inp = PRes.ok (d, inp')) : ∃ x, d = mkTextDom x := by
  unfold parse_text at h
  obtain ⟨⟨en, inp1⟩, _, h⟩ := PRes.bind_eq_ok h
  obtain ⟨s, _, h⟩ := PRes.bind_eq_ok h
  simp at h
  exact ⟨⟨s⟩, h.1.symm⟩

theorem parse_text_script_shape {inp : Input} {d : Dom} {inp' : Input}
    (h : parse_text_script inp = PRes.ok (d, inp')) : ∃ x, d = mkTextDom x := by
  unfold parse_text_script at h
  cases hm : inp.find_str ['<', '/', 's', 'c', 'r', 'i', 'p', 't'] with
  | some c =>
    rw [hm] at h
    obtain ⟨inp1, _, h⟩ := PRes.bind_eq_ok h
    obtain ⟨s, _, h⟩ := PRes.bind_eq_ok h
    simp at h
    exact ⟨⟨s⟩, h.1.symm⟩
  | none => rw [hm] at h; exact absurd h (by simp)

theorem create_dom_vec_loop_flat (fuel : Nat) :
    ∀ inp v inp', create_dom_vec_loop fuel inp = PRes.ok (v, inp') →
      ∀ d ∈ v, flatFragment d := by
  induction fuel with
  | zero =>
    intro inp v inp' h
    exact absurd h (by simp [create_dom_vec_loop])
  | succ n ih =>
    intro inp v inp' h
    unfold create_dom_vec_loop at h
    obtain ⟨fin, _, h⟩ := PRes.bind_eq_ok h
    cases fin with
    | true =>
      simp at h
      obtain ⟨rfl, _⟩ := h
      intro d hd
      simp at hd
    | false =>
      simp only [Bool.false_eq_true, if_false] at h
      by_cases hcm : inp.expect_str ['<', '!', '-', '-'] = true
      · rw [if_pos hcm] at h
        obtain ⟨⟨dm, inp1⟩, hpc, h⟩ := PRes.bind_eq_ok h
        obtain ⟨⟨rest, inp2⟩, hrec, h⟩ := PRes.bind_eq_ok h
        simp at h
        obtain ⟨rfl, rfl⟩ := h
        intro d hd
        rcases List.mem_cons.mp hd with rfl | hd'
        · obtain ⟨c, rfl⟩ := parse_comment_shape hpc
          exact Or.inr (Or.inr ⟨c, rfl⟩)
        · exact ih inp1 rest inp2 hrec d hd'
      · rw [if_neg hcm] at h
        obtain ⟨lt, _, h⟩ := PRes.bind_eq_ok h
        cases lt with
        | true =>
          simp only [if_true] at h
          obtain ⟨⟨dm, inp1⟩, hpt, h⟩ := PRes.bind_eq_ok h
          obtain ⟨t, rfl⟩ := parse_tag_shape hpt
          split at h
          · obtain ⟨lt2, _, h⟩ := PRes.bind_eq_ok h
            cases lt2 with
            | false =>
              simp only [Bool.not_false, if_true] at h
              obtain ⟨⟨sdom, inp2⟩, hps, h⟩ := PRes.bind_eq_ok h
              obtain ⟨⟨rest, inp3⟩, hrec, h⟩ := PRes.bind_eq_ok h
              simp at h
              obtain ⟨rfl, rfl⟩ := h
              intro d hd
              rcases List.mem_cons.mp hd with rfl | hd'
              · exact Or.inl ⟨t, rfl⟩
              rcases List.mem_cons.mp hd' with rfl | hd''
              · obtain ⟨x, rfl⟩ := parse_text_script_shape hps
                exact Or.inr (Or.inl ⟨x, rfl⟩)
              · exact ih inp2 rest inp3 hrec d hd''
            | true =>
              simp only [Bool.not_true, if_false] at h
              obtain ⟨⟨rest, inp3⟩, hrec, h⟩ := PRes.bind_eq_ok h
              simp at h
              obtain ⟨rfl, rfl⟩ := h
              intro d hd
              rcases List.mem_cons.mp hd with rfl | hd'
              · exact Or.inl ⟨t, rfl⟩
              · exact ih inp1 rest inp3 hrec d hd'
          · obtain ⟨⟨rest, inp3⟩, hrec, h⟩ := PRes.bind_eq_ok h
            simp at h
            obtain ⟨rfl, rfl⟩ := h
            intro d hd
            rcases List.mem_cons.mp hd with rfl | hd'
            · exact Or.inl ⟨t, rfl⟩
            · exact ih inp1 rest inp3 hrec d hd'
        | false =>
          simp only [Bool.false_eq_true, if_false] at h
          obtain ⟨sp, _, h⟩ := PRes.bind_eq_ok h
          obtain ⟨ws, _, h⟩ := PRes.bind_eq_ok h
          obtain ⟨inp2, _, h⟩ := PRes.bind_eq_ok h
          obtain ⟨lt3, _, h⟩ := PRes.bind_eq_ok h
          cases lt3 with
          | false =>
            simp only [Bool.not_false, if_true] at h
            obtain ⟨⟨dm, inp3⟩, hpt, h⟩ := PRes.bind_eq_ok h
            obtain ⟨⟨rest, inp4⟩, hrec, h⟩ := PRes.bind_eq_ok h
            simp at h
            obtain ⟨rfl, rfl⟩ := h
            intro d hd
            rcases List.mem_cons.mp hd with rfl | hd'
            · obtain ⟨x, rfl⟩ := parse_text_shape hpt
              exact Or.inr (Or.inl ⟨x, rfl⟩)
            · exact ih inp3 rest inp4 hrec d hd'
          | true =>
            simp only [Bool.not_true, if_false] at h
            exact ih inp2 v inp' h

theorem appendChildren_mk (dt : DomType) (tg : Option Tag) (tx : Option Text)
    (cm : Option Comment) (ch : Option (List Dom)) (cs : List Dom) :
    (Dom.mk dt tg tx cm ch).appendChildren cs =
      Dom.mk dt tg tx cm
        (if cs.isEmpty then ch else some (ch.getD [] ++ cs)) := by
  induction cs generalizing ch with
  | nil => simp [Dom.appendChildren]
  | cons c cs' ih =>
    show (Dom.mk dt tg tx cm ch).appendChildren (c :: cs') = _
    have step : (Dom.mk dt tg tx cm ch).appendChildren (c :: cs') =
        (Dom.mk dt tg tx cm (some (ch.getD [] ++ [c]))).appendChildren cs' := by
      simp [Dom.appendChildren, Dom.add_child]
    rw [step, ih]
    cases cs' <;> simp

theorem create_dom_tree_selfClosed (fuel : Nat) :
    ∀ v cs rem, (∀ d ∈ v, d.get_children = none) →
      create_dom_tree fuel v = PRes.ok (cs, rem) →
      selfClosedChildlessList cs = true ∧
        ∀ d ∈ rem, d.get_children = none := by
  induction fuel with
  | zero =>
    intro v cs rem hv h
    cases v with
    | nil =>
      simp [create_dom_tree] at h
      obtain ⟨rfl, rfl⟩ := h
      exact ⟨rfl, by intro d hd; simp at hd⟩
    | cons d rest => exact absurd h (by simp [create_dom_tree])
  | succ n ih =>
    intro v cs rem hv h
    cases v with
    | nil =>
      simp [create_dom_tree] at h
      obtain ⟨rfl, rfl⟩ := h
      exact ⟨rfl, by intro d hd; simp at hd⟩
    | cons d rest =>
      have hd0 : d.get_children = none := hv d (by simp)
      have hrest : ∀ x ∈ rest, x.get_children = none :=
        fun x hx => hv x (by simp [hx])
      obtain ⟨ddt, dtag, dtx, dcm, dch⟩ := d
      have hch : dch = none := hd0
      subst hch
      cases ddt with
      | Tag =>
        cases dtag with
        | none =>
          exact absurd h (by simp [create_dom_tree, Dom.dom_type, Dom.get_tag])
        | some tag =>
          unfold create_dom_tree at h
          simp only [Dom.dom_type, Dom.get_tag] at h
          split at h
          · -- closing marker: early return
            rename_i hterm
            simp at h
            obtain ⟨rfl, rfl⟩ := h
            exact ⟨rfl, hrest⟩
          · rename_i hterm
            split at h
            · -- opening, not self-closed
              rename_i hnclosed
              obtain ⟨tIdx, _, h⟩ := PRes.bind_eq_ok h
              match tIdx with
              | some 0 =>
                obtain ⟨⟨cs2, rem2⟩, hrec, h⟩ := PRes.bind_eq_ok h
                simp at h
                obtain ⟨rfl, rfl⟩ := h
                obtain ⟨hlist, hrem⟩ := ih rest.tail cs2 rem2
                  (fun x hx => hrest x (List.mem_of_mem_tail hx)) hrec
                refine ⟨?_, hrem⟩
                simp [selfClosedChildlessList, selfClosedChildless, hlist]
              | some (k + 1) =>
                obtain ⟨⟨cs1, rem1⟩, hrec1, h⟩ := PRes.bind_eq_ok h
                obtain ⟨⟨cs2, rem2⟩, hrec2, h⟩ := PRes.bind_eq_ok h
                simp at h
                obtain ⟨rfl, rfl⟩ := h
                obtain ⟨hlist1, hrem1⟩ := ih rest cs1 rem1 hrest hrec1
                obtain ⟨hlist2, hrem2⟩ := ih rem1 cs2 rem2 hrem1 hrec2
                refine ⟨?_, hrem2⟩
                rw [appendChildren_mk]
                have hncl : tag.terminated = false := by
                  revert hnclosed
                  cases tag.terminated <;> simp
                cases hcse : cs1.isEmpty with
                | true =>
                  simp [selfClosedChildlessList, selfClosedChildless, hcse,
                    hlist2, hncl]
                | false =>
                  simp [selfClosedChildlessList, selfClosedChildless, hcse,
                    hlist1, hlist2, hncl]
              | none =>
                obtain ⟨⟨cs2, rem2⟩, hrec, h⟩ := PRes.bind_eq_ok h
                simp at h
                obtain ⟨rfl, rfl⟩ := h
                obtain ⟨hlist, hrem⟩ := ih rest cs2 rem2 hrest hrec
                refine ⟨?_, hrem⟩
                simp [selfClosedChildlessList, selfClosedChildless, hlist]
            · -- self-closed: added unchanged, childless
              obtain ⟨⟨cs2, rem2⟩, hrec, h⟩ := PRes.bind_eq_ok h
              simp at h
              obtain ⟨rfl, rfl⟩ := h
              obtain ⟨hlist, hrem⟩ := ih rest cs2 rem2 hrest hrec
              refine ⟨?_, hrem⟩
              simp [selfClosedChildlessList, selfClosedChildless, hlist]
      | Text =>
        unfold create_dom_tree at h
        simp only [Dom.dom_type] at h
        obtain ⟨⟨cs2, rem2⟩, hrec, h⟩ := PRes.bind_eq_ok h
        simp at h
        obtain ⟨rfl, rfl⟩ := h
        obtain ⟨hlist, hrem⟩ := ih rest cs2 rem2 hrest hrec
        exact ⟨by simp [selfClosedChildlessList, selfClosedChildless, hlist],
          hrem⟩
      | Comment =>
        unfold create_dom_tree at h
        simp only [Dom.dom_type] at h
        obtain ⟨⟨cs2, rem2⟩, hrec, h⟩ := PRes.bind_eq_ok h
        simp at h
        obtain ⟨rfl, rfl⟩ := h
        obtain ⟨hlist, hrem⟩ := ih rest cs2 rem2 hrest hrec
        exact ⟨by simp [selfClosedChildlessList, selfClosedChildless, hlist],
          hrem⟩

/-- C9: on every input on which `parse` completes successfully, every Tag
node of the returned tree whose self-closed (`terminated`) flag is set has
no children: the segmenter emits only childless fragments and the reducer
hands children only to tags that pass the not-self-closed guard. -/
theorem C9_selfclosed_tags_childless (fuel : Nat) (doc : List Char)
    (root : Dom) (h : parse fuel doc = PRes.ok root) :
    selfClosedChildless root = true := by
  unfold parse at h
  obtain ⟨inp0, _, h⟩ := PRes.bind_eq_ok h
  obtain ⟨⟨v, inpv⟩, hvec, h⟩ := PRes.bind_eq_ok h
  obtain ⟨⟨cs, rem⟩, htree, h⟩ := PRes.bind_eq_ok h
  simp at h
  subst h
  unfold create_dom_vec at hvec
  obtain ⟨inps, _, hloop⟩ := PRes.bind_eq_ok hvec
  have hflat := create_dom_vec_loop_flat fuel inps v inpv hloop
  have hchildless : ∀ d ∈ v, d.get_children = none := by
    intro d hd
    rcases hflat d hd with ⟨t, rfl⟩ | ⟨x, rfl⟩ | ⟨c, rfl⟩ <;> rfl
  obtain ⟨hcs, _⟩ := create_dom_tree_selfClosed fuel v cs rem hchildless htree
  show selfClosedChildless
      ((Dom.mk DomType.Tag (some (Tag.new "root")) none none
        none).appendChildren cs) = true
  rw [appendChildren_mk]
  cases hcse : cs.isEmpty with
  | true => simp [selfClosedChildless, Tag.new]
  | false => simp [selfClosedChildless, Tag.new, hcse, hcs]

/-- Witness for C9 at a concrete input: parsing a self-closed tag. -/
theorem C9_selfclosed_witness :
    parse 20 "<a />".data =
      PRes.ok (Dom.mk DomType.Tag (some (Tag.new "root")) none none
        (some [Dom.mk DomType.Tag
          (some { name := "a", attrs := some [], terminated := true,
                  terminator := false }) none none none])) ∧
    selfClosedChildless
      (Dom.mk DomType.Tag (some (Tag.new "root")) none none
        (some [Dom.mk DomType.Tag
          (some { name := "a", attrs := some [], terminated := true,
                  terminator := false }) none none none])) = true :=
  ⟨rfl, C9_selfclosed_tags_childless 20 "<a />".data _ rfl⟩

theorem occursAt_length_le {l needle : List Char} {k : Nat} (hne : needle ≠ [])
    (h : occursAt l needle k) : k + needle.length ≤ l.length := by
  have hlen := congrArg List.length h
  rw [List.length_take, List.length_drop] at hlen
  have h1 : needle.length ≤ l.length - k := min_eq_left_iff.mp hlen
  have h2 : 0 < needle.length := List.length_pos.mpr hne
  omega

theorem find_str_inner_spec (l : List Char) :
    ∀ (rest : List Char) (i : Nat), rest ≠ [] →
      ((find_str_inner l i rest = InnerRes.found) ↔
        (l.drop i).take rest.length = rest) ∧
      (find_str_inner l i rest = InnerRes.offEnd →
        l.length < i + rest.length) := by
  intro rest
  induction rest with
  | nil => intro i h; exact absurd rfl h
  | cons c rest' ih =>
    intro i _
    by_cases hle : l.length ≤ i
    · have hdrop : l.drop i = [] := List.drop_eq_nil_iff.mpr hle
      have hstep : find_str_inner l i (c :: rest') = InnerRes.offEnd := by
        unfold find_str_inner
        rw [if_pos hle]
      refine ⟨?_, fun _ => by simp only [List.length_cons]; omega⟩
      rw [hstep, hdrop]
      simp
    · push_neg at hle
      have hgetD : l.getD i ' ' = l[i] := List.getD_eq_getElem l ' ' hle
      have hdrop : l.drop i = l[i] :: l.drop (i + 1) :=
        List.drop_eq_getElem_cons hle
      by_cases heq : l[i] = c
      · cases hre : rest' with
        | nil =>
          subst hre
          have hstep : find_str_inner l i [c] = InnerRes.found := by
            unfold find_str_inner
            rw [if_neg (by omega), hgetD, if_pos heq]
            rfl
          refine ⟨?_, by simp [hstep]⟩
          rw [hstep, hdrop]
          simp [heq]
        | cons c2 rest'' =>
          subst hre
          have hstep : find_str_inner l i (c :: c2 :: rest'') =
              find_str_inner l (i + 1) (c2 :: rest'') := by
            unfold find_str_inner
            rw [if_neg (by omega), hgetD, if_pos heq]
            rfl
          obtain ⟨ihf, ihoff⟩ := ih (i + 1) (by simp)
          refine ⟨?_, ?_⟩
          · rw [hstep, ihf, hdrop]
            simp only [List.length_cons, List.take_succ_cons]
            simp [heq]
          · intro hoff
            rw [hstep] at hoff
            have := ihoff hoff
            simp only [List.length_cons] at this ⊢
            omega
      · have hstep : find_str_inner l i (c :: rest') = InnerRes.mismatch := by
          unfold find_str_inner
          rw [if_neg (by omega), hgetD, if_neg heq]
        refine ⟨?_, by simp [hstep]⟩
        rw [hstep, hdrop]
        simp only [List.length_cons, List.take_succ_cons]
        simp [heq]

theorem find_str_loop_spec (l : List Char) (c0 : Char) (nrest : List Char) :
    ∀ (rem i : Nat), i + rem = l.length →
      (find_str_loop l (c0 :: nrest) rem i = none →
        ∀ k, i ≤ k → ¬ occursAt l (c0 :: nrest) k) ∧
      (∀ p, find_str_loop l (c0 :: nrest) rem i = some p →
        i ≤ p ∧ occursAt l (c0 :: nrest) p ∧
          ∀ k, i ≤ k → k < p → ¬ occursAt l (c0 :: nrest) k) := by
  intro rem
  induction rem with
  | zero =>
    intro i hinv
    refine ⟨?_, ?_⟩
    · intro _ k hk hocc
      have hb := occursAt_length_le (by simp) hocc
      simp only [List.length_cons] at hb
      omega
    · intro p hp
      exact absurd hp (by simp [find_str_loop])
  | succ rem' ih =>
    intro i hinv
    have hi : i < l.length := by omega
    have hgetD : l.getD i ' ' = l[i] := List.getD_eq_getElem l ' ' hi
    have hdrop : l.drop i = l[i] :: l.drop (i + 1) :=
      List.drop_eq_getElem_cons hi
    by_cases hc : l[i] = c0
    · by_cases hnre : nrest = []
      · subst hnre
        have hstep : find_str_loop l [c0] (rem' + 1) i = some i := by
          unfold find_str_loop
          rw [hgetD, if_pos (by simpa using hc), if_pos (by simp)]
        refine ⟨?_, ?_⟩
        · intro hnone
          rw [hstep] at hnone
          simp at hnone
        · intro p hp
          rw [hstep] at hp
          obtain rfl : i = p := by injection hp
          refine ⟨Nat.le_refl _, ?_, fun k hk hkp => by omega⟩
          rw [occursAt, hdrop]
          simp [hc]
      · have hnrne : nrest ≠ [] := hnre
        obtain ⟨innf, innoff⟩ := find_str_inner_spec l nrest (i + 1) hnrne
        have hocc_iff : occursAt l (c0 :: nrest) i ↔
            (l.drop (i + 1)).take nrest.length = nrest := by
          rw [occursAt, hdrop]
          simp only [List.length_cons, List.take_succ_cons]
          simp [hc]
        cases hinner : find_str_inner l (i + 1) nrest with
        | found =>
          have hstep : find_str_loop l (c0 :: nrest) (rem' + 1) i = some i := by
            unfold find_str_loop
            rw [hgetD, if_pos (by simpa using hc),
              if_neg (by simpa [List.length_eq_zero] using hnrne)]
            simp only [List.drop_succ_cons, List.drop_zero]
            rw [hinner]
          refine ⟨?_, ?_⟩
          · intro hnone
            rw [hstep] at hnone
            simp at hnone
          · intro p hp
            rw [hstep] at hp
            obtain rfl : i = p := by injection hp
            exact ⟨Nat.le_refl _, hocc_iff.mpr (innf.mp hinner),
              fun k hk hkp => by omega⟩
        | offEnd =>
          have hbound := innoff hinner
          have hstep : find_str_loop l (c0 :: nrest) (rem' + 1) i = none := by
            unfold find_str_loop
            rw [hgetD, if_pos (by simpa using hc),
              if_neg (by simpa [List.length_eq_zero] using hnrne)]
            simp only [List.drop_succ_cons, List.drop_zero]
            rw [hinner]
          refine ⟨?_, ?_⟩
          · intro _ k hk hocc
            have hb := occursAt_length_le (by simp) hocc
            simp only [List.length_cons] at hb hbound ⊢
            omega
          · intro p hp
            rw [hstep] at hp
            simp at hp
        | mismatch =>
          have hstep : find_str_loop l (c0 :: nrest) (rem' + 1) i =
              find_str_loop l (c0 :: nrest) rem' (i + 1) := by
            conv_lhs => unfold find_str_loop
            rw [hgetD, if_pos (by simpa using hc),
              if_neg (by simpa [List.length_eq_zero] using hnrne)]
            simp only [List.drop_succ_cons, List.drop_zero]
            rw [hinner]
          have hnotI : ¬ occursAt l (c0 :: nrest) i := by
            intro hocc
            have hf : find_str_inner l (i + 1) nrest = InnerRes.found :=
              innf.mpr (hocc_iff.mp hocc)
            rw [hinner] at hf
            simp at hf
          obtain ⟨ihn, ihs⟩ := ih (i + 1) (by omega)
          refine ⟨?_, ?_⟩
          · intro hnone k hk
            rw [hstep] at hnone
            rcases Nat.eq_or_lt_of_le hk with rfl | hlt
            · exact hnotI
            · exact ihn hnone k hlt
          · intro p hp
            rw [hstep] at hp
            obtain ⟨hip, hocc, hmin⟩ := ihs p hp
            refine ⟨by omega, hocc, ?_⟩
            intro k hk hkp
            rcases Nat.eq_or_lt_of_le hk with rfl | hlt
            · exact hnotI
            · exact hmin k hlt hkp
    · have hstep : find_str_loop l (c0 :: nrest) (rem' + 1) i =
          find_str_loop l (c0 :: nrest) rem' (i + 1) := by
        conv_lhs => unfold find_str_loop
        rw [hgetD, if_neg (by simpa using hc)]
      have hnotI : ¬ occursAt l (c0 :: nrest) i := by
        intro hocc
        rw [occursAt, hdrop] at hocc
        simp only [List.length_cons, List.take_succ_cons] at hocc
        simp [hc] at hocc
      obtain ⟨ihn, ihs⟩ := ih (i + 1) (by omega)
      refine ⟨?_, ?_⟩
      · intro hnone k hk
        rw [hstep] at hnone
        rcases Nat.eq_or_lt_of_le hk with rfl | hlt
        · exact hnotI
        · exact ihn hnone k hlt
      · intro p hp
        rw [hstep] at hp
        obtain ⟨hip, hocc, hmin⟩ := ihs p hp
        refine ⟨by omega, hocc, ?_⟩
        intro k hk hkp
        rcases Nat.eq_or_lt_of_le hk with rfl | hlt
        · exact hnotI
        · exact hmin k hlt hkp

theorem input_find_str_spec (inp : Input) (c0 : Char) (nrest : List Char) :
    (inp.find_str (c0 :: nrest) = none ↔
      ∀ k, inp.cursor ≤ k → ¬ occursAt inp.input (c0 :: nrest) k) ∧
    (∀ p, inp.find_str (c0 :: nrest) = some p →
      inp.cursor ≤ p ∧ occursAt inp.input (c0 :: nrest) p ∧
        ∀ k, inp.cursor ≤ k → k < p →
          ¬ occursAt inp.input (c0 :: nrest) k) := by
  unfold Input.find_str
  by_cases hlc : inp.input.length ≤ inp.cursor
  · rw [if_pos hlc]
    refine ⟨⟨fun _ k hk hocc => ?_, fun _ => rfl⟩, fun p hp => by simp at hp⟩
    have hb := occursAt_length_le (by simp) hocc
    simp only [List.length_cons] at hb
    omega
  · rw [if_neg hlc]
    push_neg at hlc
    obtain ⟨hn, hs⟩ := find_str_loop_spec inp.input c0 nrest
      (inp.input.length - inp.cursor) inp.cursor (by omega)
    refine ⟨⟨hn, ?_⟩, hs⟩
    intro hnone
    cases hres : find_str_loop inp.input (c0 :: nrest)
        (inp.input.length - inp.cursor) inp.cursor with
    | none => rfl
    | some p =>
      obtain ⟨hip, hocc, _⟩ := hs p hres
      exact absurd hocc (hnone p hip)

theorem parse_comment_some (inp : Input) (p : Nat)
    (hfs : inp.find_str ['-', '-', '>'] = some p)
    (hp3 : p + 3 ≤ inp.input.length) :
    (p ≤ inp.cursor + 4 → parse_comment inp = PRes.err "invalid range") ∧
    (inp.cursor + 4 < p →
      (parse_comment inp).bind (fun r => PRes.ok r.1) =
        PRes.ok (mkCommentDom ⟨String.mk
          ((inp.input.drop (inp.cursor + 4)).take
            (p - (inp.cursor + 4)))⟩)) ∧
    parse_comment inp ≠ PRes.err "Input ends in the middle of the comment" := by
  have hlen0 : ¬ inp.input.length = 0 := by omega
  obtain ⟨inp1, hsc, hinp1⟩ : ∃ inp1,
      inp.set_cursor (p + 3) = PRes.ok inp1 ∧ inp1.input = inp.input := by
    unfold Input.set_cursor
    by_cases hle : inp.input.length ≤ p + 3
    · rw [if_pos hle, if_neg hlen0]
      exact ⟨_, rfl, rfl⟩
    · rw [if_neg hle]
      exact ⟨_, rfl, rfl⟩
  have hpc : parse_comment inp =
      (inp1.get_string (inp.cursor + 4) p).bind
        (fun s => PRes.ok (mkCommentDom ⟨s⟩, inp1)) := by
    unfold parse_comment
    simp only [hfs, hsc, PRes.bind]
  refine ⟨?_, ?_, ?_⟩
  · intro hple
    rw [hpc]
    unfold Input.get_string
    rw [hinp1, if_pos hple]
    rfl
  · intro hplt
    rw [hpc]
    unfold Input.get_string
    rw [hinp1, if_neg (by omega), if_neg (by omega)]
    rfl
  · rw [hpc]
    unfold Input.get_string
    rw [hinp1]
    by_cases h1 : p ≤ inp.cursor + 4
    · rw [if_pos h1]
      simp [PRes.bind]
    · rw [if_neg h1, if_neg (by omega)]
      simp [PRes.bind]

/-- C7, amended: with the cursor standing at the literal `<!--`, the
segmenter fails with UnterminatedComment exactly when no `-->` occurs at or
after the cursor; when the first `-->` (found from the cursor, so possibly
overlapping the opener) starts more than four characters past the cursor,
it emits a Comment fragment whose payload is exactly the interior substring
between `<!--` and that `-->`; but when the interior would be empty (or the
found occurrence overlaps the opener) it fails with the invalid-range
(InvalidSlice) error instead of emitting an empty Comment. -/
theorem C7_amended_comment (inp : Input)
    (_hat : inp.expect_str ['<', '!', '-', '-'] = true) :
    (parse_comment inp = PRes.err "Input ends in the middle of the comment" ↔
      ∀ k, inp.cursor ≤ k → ¬ occursAt inp.input ['-', '-', '>'] k) ∧
    (∀ p, inp.find_str ['-', '-', '>'] = some p →
      (inp.cursor ≤ p ∧ occursAt inp.input ['-', '-', '>'] p ∧
        ∀ k, inp.cursor ≤ k → k < p →
          ¬ occursAt inp.input ['-', '-', '>'] k) ∧
      (inp.cursor + 4 < p →
        (parse_comment inp).bind (fun r => PRes.ok r.1) =
          PRes.ok (mkCommentDom ⟨String.mk
            ((inp.input.drop (inp.cursor + 4)).take
              (p - (inp.cursor + 4)))⟩)) ∧
      (p ≤ inp.cursor + 4 →
        parse_comment inp = PRes.err "invalid range")) := by
  obtain ⟨hniff, hsome⟩ := input_find_str_spec inp '-' ['-', '>']
  cases hfs : inp.find_str ['-', '-', '>'] with
  | none =>
    have hpc : parse_comment inp =
        PRes.err "Input ends in the middle of the comment" := by
      unfold parse_comment
      rw [hfs]
    refine ⟨⟨fun _ => hniff.mp hfs, fun _ => hpc⟩, ?_⟩
    intro p hp
    exact absurd hp (by simp)
  | some p =>
    obtain ⟨hip, hocc, hmin⟩ := hsome p hfs
    have hp3 : p + 3 ≤ inp.input.length := by
      have := @occursAt_length_le inp.input ['-', '-', '>'] p (by simp) hocc
      simpa using this
    obtain ⟨hinv, hok, hne⟩ := parse_comment_some inp p hfs hp3
    refine ⟨⟨fun hcontra => absurd hcontra hne, fun hall => ?_⟩, ?_⟩
    · exact absurd hocc (hall p hip)
    · intro p' hp'
      obtain rfl : p = p' := by injection hp'
      exact ⟨⟨hip, hocc, hmin⟩, hok, hinv⟩

/-- C7, counterexample: on the well-formed empty comment `<!---->` the
claim says a Comment fragment with empty payload is emitted, but
`parse_comment` fails with the invalid-range error, because `get_string`
rejects the empty slice between the interior bounds. -/
theorem C7_counterexample :
    Input.new "<!---->".data =
      PRes.ok { input := "<!---->".data, cursor := 0 } ∧
    Input.expect_str { input := "<!---->".data, cursor := 0 }
      ['<', '!', '-', '-'] = true ∧
    parse_comment { input := "<!---->".data, cursor := 0 } =
      PRes.err "invalid range" :=
  ⟨rfl, rfl, rfl⟩

/-- Witness for the amended C7 statement on `<!--x-->`: the payload is
exactly the interior `x`. -/
theorem C7_amended_witness :
    (parse_comment { input := "<!--x-->".data, cursor := 0 }).bind
      (fun r => PRes.ok r.1) = PRes.ok (mkCommentDom ⟨"x"⟩) :=
  ((C7_amended_comment { input := "<!--x-->".data, cursor := 0 } rfl).2
    5 rfl).2.1 (by decide)

theorem wfDom_tag_iff (tag : Tag) (tx : Option Text) (cm : Option Comment)
    (ch : Option (List Dom)) :
    wfDom (Dom.mk DomType.Tag (some tag) tx cm ch) = true ↔
      (tx.isNone = true ∧ cm.isNone = true ∧
        ∀ cs, ch = some cs → wfDomList cs = true) := by
  cases ch <;> simp [wfDom]
  all_goals tauto

mutual

theorem search_tag_exe_eq_filter : ∀ (d : Dom) (needle : Tag),
    wfDom d = true →
    search_tag_exe d needle = (allNodes d).filterMap (tagFilter needle)
  | .mk dt tag tx cm none, needle, hwf => by
    simp only [wfDom, Bool.and_eq_true] at hwf
    obtain ⟨hfields, -⟩ := hwf
    cases dt with
    | Tag =>
      cases tag with
      | none => simp at hfields
      | some t =>
        simp only [search_tag_exe, allNodes, tagFilter, Dom.get_tag,
          List.filterMap_cons, List.filterMap_nil]
        by_cases hs : satisfy_sufficient_condition needle t = true <;>
          simp [hs]
    | Text =>
      cases tag with
      | none =>
        simp [search_tag_exe, allNodes, tagFilter, Dom.get_tag,
          List.filterMap_cons]
      | some t => simp at hfields
    | Comment =>
      cases tag with
      | none =>
        simp [search_tag_exe, allNodes, tagFilter, Dom.get_tag,
          List.filterMap_cons]
      | some t => simp at hfields
  | .mk dt tag tx cm (some cs), needle, hwf => by
    simp only [wfDom, Bool.and_eq_true] at hwf
    obtain ⟨hfields, hch⟩ := hwf
    cases dt with
    | Tag =>
      cases tag with
      | none => simp at hfields
      | some t =>
        have ih := search_tag_exe_list_eq_filter cs needle (by simpa using hch)
        simp only [search_tag_exe, allNodes, tagFilter, Dom.get_tag,
          List.filterMap_cons, ih]
        by_cases hs : satisfy_sufficient_condition needle t = true <;>
          simp [hs]
    | Text => simp at hfields
    | Comment => simp at hfields

theorem search_tag_exe_list_eq_filter : ∀ (l : List Dom) (needle : Tag),
    wfDomList l = true →
    search_tag_exe_list l needle =
      (allNodesList l).filterMap (tagFilter needle)
  | [], _, _ => by simp [search_tag_exe_list, allNodesList]
  | d :: rest, needle, hwf => by
    simp only [wfDomList, Bool.and_eq_true] at hwf
    have ih1 := search_tag_exe_eq_filter d needle hwf.1
    have ih2 := search_tag_exe_list_eq_filter rest needle hwf.2
    simp [search_tag_exe_list, allNodesList, List.filterMap_append, ih1, ih2]

end

mutual

theorem search_tag_from_name_exe_eq : ∀ (d : Dom) (name : String),
    wfDom d = true →
    search_tag_from_name_exe d name =
      PRes.ok ((allNodes d).filterMap (nameFilter name))
  | .mk dt tag tx cm none, name, hwf => by
    simp only [wfDom, Bool.and_eq_true] at hwf
    obtain ⟨hfields, -⟩ := hwf
    cases dt with
    | Tag =>
      cases tag with
      | none => simp at hfields
      | some t =>
        simp only [search_tag_from_name_exe, allNodes, nameFilter,
          Dom.get_tag, List.filterMap_cons, List.filterMap_nil]
        by_cases hs : name = t.name <;> simp [hs]
    | Text =>
      cases tag with
      | none =>
        simp [search_tag_from_name_exe, allNodes, nameFilter, Dom.get_tag,
          List.filterMap_cons]
      | some t => simp at hfields
    | Comment =>
      cases tag with
      | none =>
        simp [search_tag_from_name_exe, allNodes, nameFilter, Dom.get_tag,
          List.filterMap_cons]
      | some t => simp at hfields
  | .mk dt tag tx cm (some cs), name, hwf => by
    simp only [wfDom, Bool.and_eq_true] at hwf
    obtain ⟨hfields, hch⟩ := hwf
    cases dt with
    | Tag =>
      cases tag with
      | none => simp at hfields
      | some t =>
        have ih := search_tag_from_name_exe_list_eq cs name
          (by simpa using hch)
        simp only [search_tag_from_name_exe, allNodes, nameFilter,
          Dom.get_tag, List.filterMap_cons, ih, PRes.bind]
        by_cases hs : name = t.name <;> simp [hs]
    | Text => simp at hfields
    | Comment => simp at hfields

theorem search_tag_from_name_exe_list_eq : ∀ (l : List Dom) (name : String),
    wfDomList l = true →
    search_tag_from_name_exe_list l name =
      PRes.ok ((allNodesList l).filterMap (nameFilter name))
  | [], _, _ => by simp [search_tag_from_name_exe_list, allNodesList]
  | d :: rest, name, hwf => by
    simp only [wfDomList, Bool.and_eq_true] at hwf
    have ih1 := search_tag_from_name_exe_eq d name hwf.1
    have ih2 := search_tag_from_name_exe_list_eq rest name hwf.2
    simp [search_tag_from_name_exe_list, allNodesList,
      List.filterMap_append, ih1, ih2, PRes.bind]

end

mutual

theorem search_text_exe_eq : ∀ (d : Dom) (needle : Tag),
    wfDom d = true →
    search_text_from_tag_children_exe d needle =
      (allNodes d).flatMap (textFilter needle)
  | .mk dt tag tx cm none, needle, hwf => by
    simp only [wfDom, Bool.and_eq_true] at hwf
    obtain ⟨hfields, -⟩ := hwf
    cases dt with
    | Tag =>
      cases tag with
      | none => simp at hfields
      | some t =>
        simp only [search_text_from_tag_children_exe, allNodes, textFilter,
          Dom.get_tag, Dom.get_children, List.flatMap_cons, List.flatMap_nil]
        by_cases hs : satisfy_sufficient_condition needle t = true <;>
          simp [hs, collect_child_texts]
    | Text =>
      cases tag with
      | none =>
        simp [search_text_from_tag_children_exe, allNodes, textFilter,
          Dom.get_tag]
      | some t => simp at hfields
    | Comment =>
      cases tag with
      | none =>
        simp [search_text_from_tag_children_exe, allNodes, textFilter,
          Dom.get_tag]
      | some t => simp at hfields
  | .mk dt tag tx cm (some cs), needle, hwf => by
    simp only [wfDom, Bool.and_eq_true] at hwf
    obtain ⟨hfields, hch⟩ := hwf
    cases dt with
    | Tag =>
      cases tag with
      | none => simp at hfields
      | some t =>
        have ih := search_text_exe_list_eq cs needle (by simpa using hch)
        simp only [search_text_from_tag_children_exe, allNodes, textFilter,
          Dom.get_tag, Dom.get_children, List.flatMap_cons, ih]
        by_cases hs : satisfy_sufficient_condition needle t = true <;>
          simp [hs]
    | Text => simp at hfields
    | Comment => simp at hfields

theorem search_text_exe_list_eq : ∀ (l : List Dom) (needle : Tag),
    wfDomList l = true →
    search_text_exe_list l needle =
      (allNodesList l).flatMap (textFilter needle)
  | [], _, _ => by simp [search_text_exe_list, allNodesList]
  | d :: rest, needle, hwf => by
    simp only [wfDomList, Bool.and_eq_true] at hwf
    have ih1 := search_text_exe_eq d needle hwf.1
    have ih2 := search_text_exe_list_eq rest needle hwf.2
    simp [search_text_exe_list, allNodesList, ih1, ih2]

end

theorem create_dom_tree_wf (fuel : Nat) :
    ∀ v cs rem, (∀ d ∈ v, wfDom d = true ∧ d.get_children = none) →
      create_dom_tree fuel v = PRes.ok (cs, rem) →
      wfDomList cs = true ∧
        ∀ d ∈ rem, wfDom d = true ∧ d.get_children = none := by
  induction fuel with
  | zero =>
    intro v cs rem hv h
    cases v with
    | nil =>
      simp [create_dom_tree] at h
      obtain ⟨rfl, rfl⟩ := h
      exact ⟨rfl, by intro d hd; simp at hd⟩
    | cons d rest => exact absurd h (by simp [create_dom_tree])
  | succ n ih =>
    intro v cs rem hv h
    cases v with
    | nil =>
      simp [create_dom_tree] at h
      obtain ⟨rfl, rfl⟩ := h
      exact ⟨rfl, by intro d hd; simp at hd⟩
    | cons d rest =>
      obtain ⟨hdwf, hd0⟩ := hv d (by simp)
      have hrest : ∀ x ∈ rest, wfDom x = true ∧ x.get_children = none :=
        fun x hx => hv x (by simp [hx])
      obtain ⟨ddt, dtag, dtx, dcm, dch⟩ := d
      have hch : dch = none := hd0
      subst hch
      cases ddt with
      | Tag =>
        cases dtag with
        | none =>
          exact absurd h (by simp [create_dom_tree, Dom.dom_type, Dom.get_tag])
        | some tag =>
          unfold create_dom_tree at h
          simp only [Dom.dom_type, Dom.get_tag] at h
          split at h
          · simp at h
            obtain ⟨rfl, rfl⟩ := h
            exact ⟨rfl, hrest⟩
          · split at h
            · obtain ⟨tIdx, _, h⟩ := PRes.bind_eq_ok h
              match tIdx with
              | some 0 =>
                obtain ⟨⟨cs2, rem2⟩, hrec, h⟩ := PRes.bind_eq_ok h
                simp at h
                obtain ⟨rfl, rfl⟩ := h
                obtain ⟨hlist, hrem⟩ := ih rest.tail cs2 rem2
                  (fun x hx => hrest x (List.mem_of_mem_tail hx)) hrec
                refine ⟨?_, hrem⟩
                simp only [wfDomList, Bool.and_eq_true]
                exact ⟨hdwf, hlist⟩
              | some (k + 1) =>
                obtain ⟨⟨cs1, rem1⟩, hrec1, h⟩ := PRes.bind_eq_ok h
                obtain ⟨⟨cs2, rem2⟩, hrec2, h⟩ := PRes.bind_eq_ok h
                simp at h
                obtain ⟨rfl, rfl⟩ := h
                obtain ⟨hlist1, hrem1⟩ := ih rest cs1 rem1 hrest hrec1
                obtain ⟨hlist2, hrem2⟩ := ih rem1 cs2 rem2 hrem1 hrec2
                refine ⟨?_, hrem2⟩
                rw [appendChildren_mk]
                simp only [wfDomList, Bool.and_eq_true]
                refine ⟨?_, hlist2⟩
                obtain ⟨h1, h2, -⟩ := (wfDom_tag_iff tag dtx dcm none).mp hdwf
                rw [wfDom_tag_iff]
                refine ⟨h1, h2, fun cs hcs => ?_⟩
                cases hcse : cs1.isEmpty with
                | true => rw [hcse] at hcs; simp at hcs
                | false =>
                  rw [hcse] at hcs
                  simp at hcs
                  subst hcs
                  exact hlist1
              | none =>
                obtain ⟨⟨cs2, rem2⟩, hrec, h⟩ := PRes.bind_eq_ok h
                simp at h
                obtain ⟨rfl, rfl⟩ := h
                obtain ⟨hlist, hrem⟩ := ih rest cs2 rem2 hrest hrec
                refine ⟨?_, hrem⟩
                simp only [wfDomList, Bool.and_eq_true]
                exact ⟨hdwf, hlist⟩
            · obtain ⟨⟨cs2, rem2⟩, hrec, h⟩ := PRes.bind_eq_ok h
              simp at h
              obtain ⟨rfl, rfl⟩ := h
              obtain ⟨hlist, hrem⟩ := ih rest cs2 rem2 hrest hrec
              refine ⟨?_, hrem⟩
              simp only [wfDomList, Bool.and_eq_true]
              exact ⟨hdwf, hlist⟩
      | Text =>
        unfold create_dom_tree at h
        simp only [Dom.dom_type] at h
        obtain ⟨⟨cs2, rem2⟩, hrec, h⟩ := PRes.bind_eq_ok h
        simp at h
        obtain ⟨rfl, rfl⟩ := h
        obtain ⟨hlist, hrem⟩ := ih rest cs2 rem2 hrest hrec
        refine ⟨?_, hrem⟩
        simp only [wfDomList, Bool.and_eq_true]
        exact ⟨hdwf, hlist⟩
      | Comment =>
        unfold create_dom_tree at h
        simp only [Dom.dom_type] at h
        obtain ⟨⟨cs2, rem2⟩, hrec, h⟩ := PRes.bind_eq_ok h
        simp at h
        obtain ⟨rfl, rfl⟩ := h
        obtain ⟨hlist, hrem⟩ := ih rest cs2 rem2 hrest hrec
        refine ⟨?_, hrem⟩
        simp only [wfDomList, Bool.and_eq_true]
        exact ⟨hdwf, hlist⟩

theorem parse_wf (fuel : Nat) (doc : List Char) (root : Dom)
    (h : parse fuel doc = PRes.ok root) : wfDom root = true := by
  unfold parse at h
  obtain ⟨inp0, _, h⟩ := PRes.bind_eq_ok h
  obtain ⟨⟨v, inpv⟩, hvec, h⟩ := PRes.bind_eq_ok h
  obtain ⟨⟨cs, rem⟩, htree, h⟩ := PRes.bind_eq_ok h
  simp at h
  subst h
  unfold create_dom_vec at hvec
  obtain ⟨inps, _, hloop⟩ := PRes.bind_eq_ok hvec
  have hflat := create_dom_vec_loop_flat fuel inps v inpv hloop
  have hwfv : ∀ d ∈ v, wfDom d = true ∧ d.get_children = none := by
    intro d hd
    rcases hflat d hd with ⟨t, rfl⟩ | ⟨x, rfl⟩ | ⟨c, rfl⟩ <;> exact ⟨rfl, rfl⟩
  obtain ⟨hcs, _⟩ := create_dom_tree_wf fuel v cs rem hwfv htree
  show wfDom ((Dom.mk DomType.Tag (some (Tag.new "root")) none none
    none).appendChildren cs) = true
  rw [appendChildren_mk]
  cases hcse : cs.isEmpty with
  | true => simp [wfDom]
  | false =>
    simp only [wfDom, Bool.and_eq_true]
    exact ⟨by simp, by simpa using hcs⟩

/-- C8: on every tree `parse` returns, the three flat queries are total —
`search_tag_from_name` never errors, panics or runs out (and the other two
are plainly total functions) — and each returns the absent result exactly
when no node of the tree satisfies its query, and otherwise a non-empty
list. -/
theorem C8_flat_queries (fuel : Nat) (doc : List Char) (root : Dom)
    (h : parse fuel doc = PRes.ok root) (needle : Tag) (name : String) :
    (search_tag root needle = none ↔
      ((allNodes root).all fun n =>
        match n.get_tag with
        | some t => !satisfy_sufficient_condition needle t
        | none => true) = true) ∧
    (∀ l, search_tag root needle = some l → l ≠ []) ∧
    (∀ e, search_tag_from_name root name ≠ PRes.err e) ∧
    (search_tag_from_name root name ≠ PRes.panicked) ∧
    (search_tag_from_name root name ≠ PRes.fuelOut) ∧
    (search_tag_from_name root name = PRes.ok none ↔
      ((allNodes root).all fun n =>
        match n.get_tag with
        | some t => if name = t.name then false else true
        | none => true) = true) ∧
    (∀ l, search_tag_from_name root name = PRes.ok (some l) → l ≠ []) ∧
    (search_text_from_tag_children root needle = none ↔
      ((allNodes root).all fun n =>
        match n.get_tag with
        | some t =>
          if satisfy_sufficient_condition needle t then
            (collect_child_texts (n.get_children.getD [])).isEmpty
          else true
        | none => true) = true) ∧
    (∀ l, search_text_from_tag_children root needle = some l → l ≠ []) := by
  have hwf := parse_wf fuel doc root h
  have h1 := search_tag_exe_eq_filter root needle hwf
  have h2 := search_tag_from_name_exe_eq root name hwf
  have h3 := search_text_exe_eq root needle hwf
  have key1 : search_tag_exe root needle = [] ↔
      ((allNodes root).all fun n =>
        match n.get_tag with
        | some t => !satisfy_sufficient_condition needle t
        | none => true) = true := by
    rw [h1, List.filterMap_eq_nil_iff, List.all_eq_true]
    apply forall_congr'
    intro n
    apply imp_congr_right
    intro _
    cases hng : n.get_tag with
    | none => simp [tagFilter, hng]
    | some t =>
      by_cases hs : satisfy_sufficient_condition needle t = true <;>
        simp [tagFilter, hng, hs]
  have key2 : ((allNodes root).filterMap (nameFilter name) = []) ↔
      ((allNodes root).all fun n =>
        match n.get_tag with
        | some t => if name = t.name then false else true
        | none => true) = true := by
    rw [List.filterMap_eq_nil_iff, List.all_eq_true]
    apply forall_congr'
    intro n
    apply imp_congr_right
    intro _
    cases hng : n.get_tag with
    | none => simp [nameFilter, hng]
    | some t =>
      by_cases hs : name = t.name <;> simp [nameFilter, hng, hs]
  have key3 : search_text_from_tag_children_exe root needle = [] ↔
      ((allNodes root).all fun n =>
        match n.get_tag with
        | some t =>
          if satisfy_sufficient_condition needle t then
            (collect_child_texts (n.get_children.getD [])).isEmpty
          else true
        | none => true) = true := by
    rw [h3, List.flatMap_eq_nil_iff, List.all_eq_true]
    apply forall_congr'
    intro n
    apply imp_congr_right
    intro _
    cases hng : n.get_tag with
    | none => simp [textFilter, hng]
    | some t =>
      by_cases hs : satisfy_sufficient_condition needle t = true <;>
        simp [textFilter, hng, hs, List.isEmpty_iff]
  refine ⟨?_, ?_, ?_, ?_, ?_, ?_, ?_, ?_, ?_⟩
  · rw [← key1]
    unfold search_tag
    cases hres : search_tag_exe root needle <;> simp
  · intro l hl
    unfold search_tag at hl
    cases hres : search_tag_exe root needle with
    | nil => rw [hres] at hl; simp at hl
    | cons a rest =>
      rw [hres] at hl
      simp at hl
      subst hl
      simp
  · intro e
    unfold search_tag_from_name
    rw [h2]
    simp [PRes.bind]
  · unfold search_tag_from_name
    rw [h2]
    simp [PRes.bind]
  · unfold search_tag_from_name
    rw [h2]
    simp [PRes.bind]
  · rw [← key2]
    unfold search_tag_from_name
    rw [h2]
    cases hres : (allNodes root).filterMap (nameFilter name) <;>
      simp [PRes.bind]
  · intro l hl
    unfold search_tag_from_name at hl
    rw [h2] at hl
    cases hres : (allNodes root).filterMap (nameFilter name) with
    | nil => rw [hres] at hl; simp [PRes.bind] at hl
    | cons a rest =>
      rw [hres] at hl
      simp [PRes.bind] at hl
      subst hl
      simp
  · rw [← key3]
    unfold search_text_from_tag_children
    cases hres : search_text_from_tag_children_exe root needle <;> simp
  · intro l hl
    unfold search_text_from_tag_children at hl
    cases hres : search_text_from_tag_children_exe root needle with
    | nil => rw [hres] at hl; simp at hl
    | cons a rest =>
      rw [hres] at hl
      simp at hl
      subst hl
      simp

/-- Witness for C8 on the parsed tree of `<a>x</a>`: no node satisfies the
pattern tag `z`, so the query returns the explicit absent result. -/
theorem C8_flat_queries_witness : search_tag sampleC8 (Tag.new "z") = none :=
  (C8_flat_queries 30 "<a>x</a>".data sampleC8 rfl (Tag.new "z") "z").1.mpr
    (by decide)

/-- C4: the termination claim fails.  On the input "abc" (no `<` anywhere)
`parse` never completes, for any amount of fuel: the initial scanning loop
of `create_dom_vec` seeks a `<` forever, since the cursor-advance is a
no-op at the end of the buffer. -/
theorem C4_parse_diverges_without_lt (fuel : Nat) :
    parse fuel "abc".data = PRes.fuelOut := by
  show PRes.bind (Input.new "abc".data) _ = _
  have h0 : Input.new "abc".data =
      PRes.ok { input := ['a', 'b', 'c'], cursor := 0 } := rfl
  rw [h0]
  show PRes.bind (create_dom_vec fuel _) _ = _
  unfold create_dom_vec
  rw [seek_first_lt_abc_fuelOut fuel 0 (by omega)]
  rfl

end Parsercher
